import Mathlib

/-!
# A verification model of the `kvs` log-structured key/value store

This file gives a shallow embedding of the storage engine in
`courses/rust/projects/project-4/src/engines/kvs.rs` together with the wire
layer of `src/server.rs`, `src/protocol.rs` (and the response enums of
`project-3/src/protocol.rs` that `server.rs` imports) and the `Display`
instance of `project-3/src/error.rs`.

Modelling conventions:

* A log segment file is modelled at record granularity as a `List Command`:
  the on-disk file is the concatenation of the self-delimiting encodings of
  those commands.  The byte size of an encoded command is an arbitrary
  function `sz : Command → Nat` (every encoding used by `rmp_serde` produces
  at least one byte, which the theorems assume as `∀ c, 1 ≤ sz c`).
  `fileSize` is the total byte size of a file and `readAt f off` is the
  result of seeking to byte offset `off` and decoding one record: the record
  that starts exactly there, or `none` when `off` is the end of the file or
  not a record boundary (the real decoder fails with an EOF or decode error
  there).
* The directory is `List (Nat × List Command)`: segment id (the `<N>` of the
  canonical file name `<N>.kvs.log` produced by `log_path`) paired with the
  file content.  `HashMap`s (the `readers` table keyed by segment id, the
  key index) are modelled as association lists with unique keys; `alookup`,
  `ainsert`, `aerase` mirror `get`/`insert`/`remove`.  The `readers` table
  only matters through its key set (a `BufReader` always reads the current
  content of its file), so it is modelled as the list of segment ids that
  own a reader.
* Fallible operations return `Option`: `none` models the `unwrap` panics on
  the reader-table lookups in `get` and `compact` (and, for `compact`, the
  byte-for-byte copy of an index slice that does not hold exactly one
  record, which this record-level model cannot represent; both are proved
  unreachable from reachable states).  Engine errors are `Except KvsError`.
* `path` is dropped from the store state: it only prefixes file names and
  every operation uses the same directory.
-/

/-- `Command` of `engines/kvs.rs` (lines 41-45). -/
inductive Command where
  | Set : String → String → Command
  | Remove : String → Command
deriving DecidableEq, Repr

/-- `CommandPosition` of `engines/kvs.rs` (lines 25-29): segment id, byte
offset and byte length of one encoded command. -/
structure CommandPosition where
  log_number : Nat
  offset : Nat
  bytes : Nat
deriving DecidableEq, Repr

/-- `KvsError` of `project-3/src/error.rs` (the variants, with the `IO`
variant spelled `Io`; the inner errors are abstracted to their `Display`
strings). -/
inductive KvsError where
  | Decode : String → KvsError
  | Encode : String → KvsError
  | Io : String → KvsError
  | KeyNotFound : KvsError
  | UnexpectedCommand : KvsError
  | StringError : String → KvsError
  | Sled : String → KvsError
  | Utf8 : String → KvsError
deriving DecidableEq, Repr

/-- Association-list lookup, modelling `HashMap::get`. -/
def alookup [DecidableEq α] : List (α × β) → α → Option β
  | [], _ => none
  | (a, b) :: t, k => if a = k then some b else alookup t k

/-- Association-list insert, modelling `HashMap::insert`: replace the value
of an existing key, otherwise add the pair. -/
def ainsert [DecidableEq α] : List (α × β) → α → β → List (α × β)
  | [], k, v => [(k, v)]
  | (a, b) :: t, k, v => if a = k then (k, v) :: t else (a, b) :: ainsert t k v

/-- Association-list removal, modelling `HashMap::remove` (keys are unique,
so dropping every pair with the key removes exactly the entry). -/
def aerase [DecidableEq α] : List (α × β) → α → List (α × β)
  | [], _ => []
  | (a, b) :: t, k => if a = k then aerase t k else (a, b) :: aerase t k

/-- Key-set insertion for the `readers` table, modelling the effect of
`HashMap::insert` on the key set. -/
def insertReader (rs : List Nat) (n : Nat) : List Nat :=
  if n ∈ rs then rs else rs ++ [n]

/-- The store directory: segment id `N` (of file `<N>.kvs.log`) mapped to
the decoded content of that file. -/
abbrev Dir := List (Nat × List Command)

/-- The in-memory key index: `index` field of `KvStore`. -/
abbrev Index := List (String × CommandPosition)

/-- `KvStore` of `engines/kvs.rs` (lines 31-39).  The `Arc<Mutex<_>>`
wrappers are dropped (this model is sequential), `readers` is the list of
segment ids owning a `BufReader`, and the directory of log files stands in
for `path` plus the `writer` handle (the writer is an append handle to the
file with id `log_number`). -/
structure KvStore where
  files : Dir
  readers : List Nat
  index : Index
  log_number : Nat
  uncompacted_bytes : Nat
deriving DecidableEq, Repr

/-- `COMPACTION_THRESHOLD_BYTES` of `engines/kvs.rs` (line 105). -/
def COMPACTION_THRESHOLD_BYTES : Nat := 1048576

section Model

variable (sz : Command → Nat)

/-- Total byte size of a segment file: the sum of its records' encodings. -/
def fileSize : List Command → Nat
  | [] => 0
  | c :: cs => sz c + fileSize cs

/-- Seek to byte offset `off` in a file and decode one record.  `some c`
when `off` is the boundary where record `c` starts; `none` when `off` is
the end of the file (the decoder reports `UnexpectedEof`) or inside a
record (the decoder fails or misreads — also an error). -/
def readAt : List Command → Nat → Option Command
  | [], _ => none
  | c :: cs, off =>
    if off = 0 then some c
    else if off < sz c then none
    else readAt cs (off - sz c)

/-- The loop of `load_index` (`engines/kvs.rs` lines 69-103) started at
stream offset `off`: decode each record, inserting `Set` keys at their
position (`bytes` = post-decode position minus `offset`, i.e. the record's
encoded size) and deleting `Remove` keys, until end of file. -/
def loadIndexFrom (n : Nat) : List Command → Nat → Index → Index
  | [], _, idx => idx
  | c :: cs, off, idx =>
    match c with
    | .Set k _ => loadIndexFrom n cs (off + sz c) (ainsert idx k ⟨n, off, sz c⟩)
    | .Remove k => loadIndexFrom n cs (off + sz c) (aerase idx k)

/-- `load_index` of `engines/kvs.rs` (lines 69-103): replay one segment from
offset 0 into the index. -/
def load_index (n : Nat) (f : List Command) (idx : Index) : Index :=
  loadIndexFrom sz n f 0 idx

/-- The replay loop of `KvStore::open` (lines 117-122) over an explicit list
of segment ids: each id's file is replayed into the index in turn. -/
def replayList (d : Dir) : List Nat → Index → Index
  | [], idx => idx
  | n :: ns, idx => replayList d ns (load_index sz n ((alookup d n).getD []) idx)

/-- The directory's segment ids sorted ascending, as produced by
`get_log_numbers` on the canonical file names the store writes
(`log_numbers.sort_unstable()`, line 65). -/
def sortedKeys (d : Dir) : List Nat :=
  List.insertionSort (· ≤ ·) (d.map Prod.fst)

/-- Replay every segment of the directory in ascending id order into an
empty index. -/
def replayAll (d : Dir) : Index :=
  replayList sz d (sortedKeys d) []

/-- `new_log_file` of `engines/kvs.rs` (lines 246-264): create the segment
file for `n` if absent (append mode keeps existing content), and register a
reader for it. -/
def new_log_file (d : Dir) (n : Nat) (rs : List Nat) : Dir × List Nat :=
  (ainsert d n ((alookup d n).getD []), insertReader rs n)

/-- `KvStore::open` of `engines/kvs.rs` (lines 109-135): enumerate segment
ids, replay each in ascending order registering a reader, pick the largest
id (or 0) as the active segment, open it for append, and start with
`uncompacted_bytes = 0` (line 133). -/
def openStore (d : Dir) : KvStore :=
  let ns := sortedKeys d
  let idx := replayList sz d ns []
  let rs := ns.foldl insertReader []
  let active := ns.getLast?.getD 0
  let fr := new_log_file d active rs
  ⟨fr.1, fr.2, idx, active, 0⟩

/-- The loop of `KvStore::compact` (lines 146-154): for each index entry,
look up the reader of its segment (`unwrap`, line 147 — `none` on failure),
copy the `bytes`-long slice at `offset` byte-for-byte to the end of the new
segment, and repoint the entry at the new segment and the pre-copy writer
position.  A slice holding exactly one record copies that record; a slice
that is not one whole record is unrepresentable at record granularity and
also yields `none` (proved unreachable). -/
def copyLive (newId : Nat) (rs : List Nat) : Index → Dir → Option (Index × Dir)
  | [], files => some ([], files)
  | (k, pos) :: rest, files =>
    if pos.log_number ∈ rs then
      match alookup files pos.log_number with
      | some f =>
        match readAt sz f pos.offset with
        | some c =>
          if sz c = pos.bytes then
            let nf := (alookup files newId).getD []
            let off := fileSize sz nf
            match copyLive newId rs rest (ainsert files newId (nf ++ [c])) with
            | some (idx, files2) => some ((k, ⟨newId, off, pos.bytes⟩) :: idx, files2)
            | none => none
          else none
        | none => none
      | none => none
    else none

/-- `KvStore::compact` of `engines/kvs.rs` (lines 137-172): bump the active
id, open the new segment as active (registering its reader), copy every
live record into it repointing the index, then drop the readers of every id
strictly below the new id and delete those files, and reset
`uncompacted_bytes` to 0. -/
def KvStore.compact (s : KvStore) : Option KvStore :=
  let newId := s.log_number + 1
  let fr := new_log_file s.files newId s.readers
  match copyLive sz newId fr.2 s.index fr.1 with
  | none => none
  | some (idx, files1) =>
    let stale := fr.2.filter (fun n => decide (n < newId))
    let rs1 := fr.2.filter (fun n => !decide (n < newId))
    let files2 := stale.foldl (fun fs n => aerase fs n) files1
    some ⟨files2, rs1, idx, newId, 0⟩

/-- The state produced by `KvsEngine::set` for `KvStore` (lines 177-196)
before the compaction-threshold check: serialize `Set(key, value)` at the
end of the active segment (`offset` is the pre-write position, `bytes` the
encoded size), insert the index entry, and add the replaced entry's `bytes`
to `uncompacted_bytes` when the key was present. -/
def KvStore.afterSet (s : KvStore) (k v : String) : KvStore :=
  let cmd : Command := .Set k v
  let f := (alookup s.files s.log_number).getD []
  { files := ainsert s.files s.log_number (f ++ [cmd])
    readers := s.readers
    index := ainsert s.index k ⟨s.log_number, fileSize sz f, sz cmd⟩
    log_number := s.log_number
    uncompacted_bytes :=
      match alookup s.index k with
      | some old => s.uncompacted_bytes + old.bytes
      | none => s.uncompacted_bytes }

/-- `KvsEngine::set` for `KvStore` (lines 177-203): append and index the
record, then run compaction when `uncompacted_bytes` exceeds the threshold
(line 198). -/
def KvStore.set (s : KvStore) (k v : String) : Option KvStore :=
  let s1 := s.afterSet sz k v
  if s1.uncompacted_bytes > COMPACTION_THRESHOLD_BYTES then s1.compact sz else some s1

/-- `KvsEngine::get` for `KvStore` (lines 206-223): resolve the key in the
index (absent keys return `Ok(None)`), borrow the reader of the entry's
segment (`unwrap`, line 210 — `none` on failure), seek to the entry's
offset and decode one record; a `Set` yields its value, a `Remove` is
`UnexpectedCommand`, and a failed decode is an error (`KvsError::IO` on
EOF, `KvsError::Decode` otherwise; the inner error text is not modelled). -/
def KvStore.get (s : KvStore) (k : String) : Option (Except KvsError (Option String)) :=
  match alookup s.index k with
  | some pos =>
    if pos.log_number ∈ s.readers then
      match alookup s.files pos.log_number with
      | some f =>
        match readAt sz f pos.offset with
        | some (.Set _ v) => some (.ok (some v))
        | some (.Remove _) => some (.error .UnexpectedCommand)
        | none => some (.error (.Io ""))
      | none => none
    else none
  | none => some (.ok none)

/-- The state produced by `KvsEngine::remove` for `KvStore` on a present key
(lines 228-235) before the compaction-threshold check: drop the index
entry, append `Remove(key)` to the active segment, and add the removed
entry's `bytes` to `uncompacted_bytes`. -/
def KvStore.afterRemove (s : KvStore) (k : String) (old : CommandPosition) : KvStore :=
  let f := (alookup s.files s.log_number).getD []
  { files := ainsert s.files s.log_number (f ++ [Command.Remove k])
    readers := s.readers
    index := aerase s.index k
    log_number := s.log_number
    uncompacted_bytes := s.uncompacted_bytes + old.bytes }

/-- `KvsEngine::remove` for `KvStore` (lines 226-243): an absent key fails
with `KeyNotFound` and changes nothing; a present key appends a `Remove`
record, drops the entry, accounts its bytes, and may trigger compaction. -/
def KvStore.remove (s : KvStore) (k : String) : Option (Except KvsError Unit × KvStore) :=
  match alookup s.index k with
  | some old =>
    let s1 := s.afterRemove k old
    if s1.uncompacted_bytes > COMPACTION_THRESHOLD_BYTES then
      match s1.compact sz with
      | some s2 => some (.ok (), s2)
      | none => none
    else some (.ok (), s1)
  | none => some (.error .KeyNotFound, s)

/-- A mutating engine call, for stating laws about operation sequences. -/
inductive Op where
  | set : String → String → Op
  | remove : String → Op
deriving DecidableEq, Repr

/-- Whether an operation mentions key `k`. -/
def Op.touches : Op → String → Bool
  | .set k _, k2 => k == k2
  | .remove k, k2 => k == k2

/-- Apply one operation to a store (`none` = a panic inside the call). -/
def applyOp (s : KvStore) : Op → Option KvStore
  | .set k v => s.set sz k v
  | .remove k => (s.remove sz k).map Prod.snd

/-- Apply a sequence of operations left to right. -/
def applyOps : KvStore → List Op → Option KvStore
  | s, [] => some s
  | s, op :: ops =>
    match applyOp sz s op with
    | some s1 => applyOps s1 ops
    | none => none

/-- The store states reachable through the public API: `open` on a
directory (canonical file names have unique ids, hence the `Nodup`
hypothesis), followed by any sequence of `set` and `remove` calls (`get`
does not change the state; `compact` only runs inside `set`/`remove`). -/
inductive Reachable : KvStore → Prop
  | openR (d : Dir) (hd : (d.map Prod.fst).Nodup) : Reachable (openStore sz d)
  | setR {s : KvStore} {k v : String} {s1 : KvStore} :
      Reachable s → s.set sz k v = some s1 → Reachable s1
  | removeR {s : KvStore} {k : String} {r : Except KvsError Unit} {s1 : KvStore} :
      Reachable s → s.remove sz k = some (r, s1) → Reachable s1

/-- The index entries of `idx` are well formed with respect to the files
`d`: each entry points into an existing file, at a record boundary holding
a `Set` of exactly that key, with `bytes` its exact encoded size
(spec invariant 1). -/
def entriesOk (d : Dir) (idx : Index) : Prop :=
  ∀ k pos, alookup idx k = some pos →
    ∃ f v, alookup d pos.log_number = some f ∧
      readAt sz f pos.offset = some (.Set k v) ∧ pos.bytes = sz (.Set k v)

/-- The inductive invariant of reachable store states. -/
structure INV (s : KvStore) : Prop where
  filesNodup : (s.files.map Prod.fst).Nodup
  indexNodup : (s.index.map Prod.fst).Nodup
  readersEq : ∀ n : Nat, n ∈ s.readers ↔ n ∈ s.files.map Prod.fst
  activeMem : s.log_number ∈ s.files.map Prod.fst
  activeMax : ∀ n ∈ s.files.map Prod.fst, n ≤ s.log_number
  entries : entriesOk sz s.files s.index
  replayEq : ∀ k, alookup (replayAll sz s.files) k = alookup s.index k

end Model

/-- A concrete record-size function for witnesses (any self-delimiting
encoding assigns every command a positive byte size). -/
def sz0 : Command → Nat
  | .Set k v => 2 + k.length + v.length
  | .Remove k => 1 + k.length

/-- Modelled from the spec: the `uncompacted` accounting §4.I step 3 says
replay should perform — "for every Set that supersedes a prior index entry
and for every Remove of a present key", adding the superseded or removed
entry's byte length.  (The spec is ambiguous on whether a Remove record's
own length is also added; this follows the claim's phrasing "adds exactly
the removed entry's byte length".  The counterexample below uses a
directory without Remove records, where every reading agrees.) -/
def specReplayAccounting (sz : Command → Nat) (d : Dir) : Nat :=
  let step : Index × Nat → Nat → Index × Nat := fun st n =>
    let f := (alookup d n).getD []
    let rec go : List Command → Nat → Index × Nat → Index × Nat
      | [], _, st2 => st2
      | c :: cs, off, (idx, acc) =>
        match c with
        | .Set k _ =>
          let acc2 := match alookup idx k with
            | some old => acc + old.bytes
            | none => acc
          go cs (off + sz c) (ainsert idx k ⟨n, off, sz c⟩, acc2)
        | .Remove k =>
          let acc2 := match alookup idx k with
            | some old => acc + old.bytes
            | none => acc
          go cs (off + sz c) (aerase idx k, acc2)
    go f 0 st
  ((sortedKeys d).foldl step ([], 0)).2

/-! ## The micro-step trace of `set` (for the write-ordering claim)

`KvsEngine::set` for `KvStore` (lines 177-203) performs its effects in a
fixed program order; `setEventTrace` lists them.  The serialization at line
182 writes through `writer.get_mut()` — the raw `File` — so its bytes reach
the OS directly and never sit in the `BufWriter` buffer; the `flush` at
line 196 therefore finds an empty buffer (`stream_position` at lines
180/183 also flushes the buffer before seeking).  `bufferedAfter` computes
how many appended records are still buffered (not yet written to the OS)
after a prefix of the trace. -/

/-- One micro-step of `KvStore::set` (lines 177-203). -/
inductive SetEvent where
  /-- Line 179: lock the writer. -/
  | lockWriter
  /-- Lines 180/183: `writer.stream_position()` (flushes the empty buffer,
  then reports the file position). -/
  | streamPosition
  /-- Line 182: serialize the record into `writer.get_mut()`; `true` records
  that the bytes go directly to the OS-level file, bypassing the buffer. -/
  | serializeRecord : Bool → SetEvent
  /-- Line 186: `index.insert(..)` — the entry becomes visible to `get`. -/
  | publishIndexEntry
  /-- Line 196: `writer.flush()`. -/
  | flushWriter
  /-- Lines 198-200: the compaction call, when over the threshold. -/
  | compactCall
deriving DecidableEq, Repr

/-- The program-order trace of one execution of `KvStore::set`
(lines 177-203); `compacts` tells whether the threshold check fired. -/
def setEventTrace (compacts : Bool) : List SetEvent :=
  [.lockWriter, .streamPosition, .serializeRecord true, .streamPosition,
   .publishIndexEntry, .flushWriter] ++ (if compacts then [.compactCall] else [])

/-- Number of appended records still sitting in the `BufWriter` buffer after
running the given events: a serialization that bypasses the buffer adds
nothing, one through the buffer would add one, and `flush`/`seek` empty the
buffer. -/
def bufferedAfter (events : List SetEvent) : Nat :=
  events.foldl
    (fun b e =>
      match e with
      | .serializeRecord direct => if direct then b else b + 1
      | .flushWriter => 0
      | .streamPosition => 0
      | _ => b) 0

/-! ## Segment-file enumeration (`get_log_numbers`, lines 52-67)

File names are modelled as `String`; a directory entry is a name paired
with its `is_file` flag.  `rsplitDot` splits a name at its last `.`
(mirroring `Path::file_stem` / `Path::extension`: no `.`, or an empty part
before the last `.`, means no extension and the whole name as stem);
`trimRevKvs` is `str::trim_end_matches(".kvs")` on the reversed character
list; `parseU64` is `str::parse::<u64>` (optional leading `+`, one or more
ASCII digits, value below `2^64`). -/

/-- Split a file name at its final `.`: `some (before, after)`, or `none`
when the name has no `.`. -/
def rsplitDot : List Char → Option (List Char × List Char)
  | [] => none
  | c :: cs =>
    match rsplitDot cs with
    | some (b, a) => some (c :: b, a)
    | none => if c = '.' then some ([], cs) else none

/-- `str::trim_end_matches(".kvs")` on a reversed character list: strip
every trailing occurrence of `.kvs`. -/
def trimRevKvs : List Char → List Char
  | 's' :: 'v' :: 'k' :: '.' :: rest => trimRevKvs rest
  | cs => cs

/-- `str::parse::<u64>`: optional leading `+`, then one or more ASCII
digits, rejecting values that overflow a `u64`. -/
def parseU64 (cs : List Char) : Option Nat :=
  let ds := match cs with
    | '+' :: rest => rest
    | _ => cs
  if ds.isEmpty then none
  else if ds.all (fun c => c.isDigit) then
    let n := ds.foldl (fun acc c => acc * 10 + (c.toNat - '0'.toNat)) 0
    if n < 2 ^ 64 then some n else none
  else none

/-- `Path::extension` of a file name: the part after the final `.`, unless
there is no `.` or the part before it is empty. -/
def nameExtension (name : String) : Option String :=
  match rsplitDot name.data with
  | some (b, a) => if b.isEmpty then none else some ⟨a⟩
  | none => none

/-- `Path::file_stem` of a file name: the part before the final `.`, or the
whole name when there is no `.` or the part before it is empty. -/
def nameStem (name : String) : Option String :=
  match rsplitDot name.data with
  | some (b, _) => if b.isEmpty then some name else some ⟨b⟩
  | none => some name

/-- The id `get_log_numbers` (lines 52-67) extracts from one directory
entry (name, `is_file`): keep files whose extension is `log`, take the
stem, strip every trailing `.kvs`, and parse the rest as `u64`. -/
def entryLogNumber (e : String × Bool) : Option Nat :=
  if e.2 then
    if nameExtension e.1 = some "log" then
      match nameStem e.1 with
      | some stem => parseU64 ((trimRevKvs stem.data.reverse).reverse)
      | none => none
    else none
  else none

/-- `get_log_numbers` of `engines/kvs.rs` (lines 52-67): collect the ids of
the accepted directory entries and sort ascending. -/
def get_log_numbers (entries : List (String × Bool)) : List Nat :=
  List.insertionSort (· ≤ ·) (entries.filterMap entryLogNumber)

/-- Modelled from the spec (§4.B): a file name matching exactly
`<N>.kvs.log` with `<N>` a parseable non-negative integer — the filter the
spec claims `get_log_numbers` applies. -/
def specSegmentName (name : String) : Option Nat :=
  let cs := name.data
  if cs.length ≥ 8 ∧ cs.drop (cs.length - 8) = ".kvs.log".data then
    parseU64 (cs.take (cs.length - 8))
  else none

/-! ## Wire protocol and server dispatch

`Request` is from `project-4/src/protocol.rs`; the three response enums are
the ones `project-4/src/server.rs` imports (defined in
`project-3/src/protocol.rs`).  `rmp_serde` encodes an enum value by its
variant (index/name) plus the payload, so the wire form of a response is
modelled as the variant index paired with the payload; `Err` is index 1
with the message string in every response enum, which is why
`handle_set_request`'s use of `GetResponse::Err` still puts the same
`Err(message)` record on the wire. -/

/-- `Request` of `project-4/src/protocol.rs`. -/
inductive Request where
  | Get : String → Request
  | Set : String → String → Request
  | Remove : String → Request
deriving DecidableEq, Repr

/-- `GetResponse` of `project-3/src/protocol.rs`. -/
inductive GetResponse where
  | Ok : Option String → GetResponse
  | Err : String → GetResponse
deriving DecidableEq, Repr

/-- `SetResponse` of `project-3/src/protocol.rs`. -/
inductive SetResponse where
  | Ok : SetResponse
  | Err : String → SetResponse
deriving DecidableEq, Repr

/-- `RemoveResponse` of `project-3/src/protocol.rs`. -/
inductive RemoveResponse where
  | Ok : RemoveResponse
  | Err : String → RemoveResponse
deriving DecidableEq, Repr

/-- The payload carried by one encoded response record. -/
inductive WirePayload where
  | optStr : Option String → WirePayload
  | unitP : WirePayload
  | str : String → WirePayload
deriving DecidableEq, Repr

/-- One encoded record on the wire: the enum variant index plus payload. -/
structure WireRecord where
  tag : Nat
  payload : WirePayload
deriving DecidableEq, Repr

/-- Wire encoding of `GetResponse`. -/
def GetResponse.wire : GetResponse → WireRecord
  | .Ok v => ⟨0, .optStr v⟩
  | .Err m => ⟨1, .str m⟩

/-- Wire encoding of `SetResponse`. -/
def SetResponse.wire : SetResponse → WireRecord
  | .Ok => ⟨0, .unitP⟩
  | .Err m => ⟨1, .str m⟩

/-- Wire encoding of `RemoveResponse`. -/
def RemoveResponse.wire : RemoveResponse → WireRecord
  | .Ok => ⟨0, .unitP⟩
  | .Err m => ⟨1, .str m⟩

/-- `impl Display for KvsError` of `project-3/src/error.rs` (lines 22-35);
the inner errors stand for their own `Display` strings. -/
def KvsError.toMessage : KvsError → String
  | .Encode m => "Encode: " ++ m
  | .Decode m => "Decode: " ++ m
  | .Io m => "IO: " ++ m
  | .KeyNotFound => "Key not found"
  | .UnexpectedCommand => "UnexpectedCommand"
  | .StringError m => m
  | .Sled m => "Sled: " ++ m
  | .Utf8 m => "Utf8: " ++ m

/-- `KvsServer::handle_get_request` (`server.rs` lines 63-82), as the wire
record written for a given engine result. -/
def handle_get_request (r : Except KvsError (Option String)) : WireRecord :=
  match r with
  | .ok v => (GetResponse.Ok v).wire
  | .error e => (GetResponse.Err e.toMessage).wire

/-- `KvsServer::handle_set_request` (`server.rs` lines 84-104): note the
source writes `GetResponse::Err` (not `SetResponse::Err`) on an engine
error — on the wire both are variant index 1 with the message. -/
def handle_set_request (r : Except KvsError Unit) : WireRecord :=
  match r with
  | .ok _ => SetResponse.Ok.wire
  | .error e => (GetResponse.Err e.toMessage).wire

/-- `KvsServer::handle_remove_request` (`server.rs` lines 106-125). -/
def handle_remove_request (r : Except KvsError Unit) : WireRecord :=
  match r with
  | .ok _ => RemoveResponse.Ok.wire
  | .error e => (RemoveResponse.Err e.toMessage).wire

/-- An abstract `KvsEngine` (the server is generic over `E: KvsEngine`):
each call returns the engine result and the next engine state. -/
structure EngineM (σ : Type) where
  getE : σ → String → Except KvsError (Option String) × σ
  setE : σ → String → String → Except KvsError Unit × σ
  removeE : σ → String → Except KvsError Unit × σ

/-- What one iteration of the accept loop of `KvsServer::serve`
(`server.rs` lines 36-59) receives: a failed accept (`Err` from
`listener.incoming()`, logged and skipped), a connection whose bytes do not
decode as a `Request` (with the decode error's message), or a decoded
request.  A request also carries the outcome of writing its response back
to the socket: `none` when the handler's `serialize`/`flush` succeed,
`some e` when one of them fails with `e` (an `Encode` or IO error) — that
error propagates out of `handle_*_request` through the `?` at lines
44/47/50 and ends `serve`. -/
inductive ConnEvent where
  | acceptError : ConnEvent
  | malformed : String → ConnEvent
  | request : Request → Option KvsError → ConnEvent

/-- Dispatch of one decoded request (`server.rs` lines 42-52): call the
engine and write the handler's response. -/
def dispatchRequest (eng : EngineM σ) (s : σ) : Request → WireRecord × σ
  | .Get k =>
    let r := eng.getE s k
    (handle_get_request r.1, r.2)
  | .Set k v =>
    let r := eng.setE s k v
    (handle_set_request r.1, r.2)
  | .Remove k =>
    let r := eng.removeE s k
    (handle_remove_request r.1, r.2)

/-- `KvsServer::serve` (`server.rs` lines 34-61) over a list of incoming
connection events: a failed accept is logged and skipped (lines 55-57); a
request that fails to decode makes `serve` return
`Err(KvsError::Decode(err))` (line 52), ending the accept loop; a decoded
request is dispatched — the engine runs and the handler builds the
response — and then, if writing the response fails, that error propagates
through the `?` at lines 44/47/50 and ends `serve`; otherwise the loop
continues.  The result collects the responses written, in order. -/
def serve (eng : EngineM σ) : σ → List ConnEvent → Except KvsError (σ × List WireRecord)
  | s, [] => .ok (s, [])
  | s, .acceptError :: rest => serve eng s rest
  | _, .malformed m :: _ => .error (.Decode m)
  | s, .request r werr :: rest =>
    let ws := dispatchRequest eng s r
    match werr with
    | some e => .error e
    | none =>
      match serve eng ws.2 rest with
      | .ok (s2, out) => .ok (s2, ws.1 :: out)
      | .error e => .error e

/-- A trivial engine over a unit state, for concrete server runs. -/
def unitEngine : EngineM Unit where
  getE := fun _ _ => (.ok none, ())
  setE := fun _ _ _ => (.ok (), ())
  removeE := fun _ _ => (.ok (), ())

theorem sz0_pos : ∀ c, 1 ≤ sz0 c := by
  intro c
  cases c <;> (simp only [sz0]; omega)

/-! ## Association-list lemmas -/

section AssocLemmas

variable {α : Type} {β : Type} [DecidableEq α]

theorem alookup_ainsert_self (l : List (α × β)) (k : α) (v : β) :
    alookup (ainsert l k v) k = some v := by
  induction l with
  | nil => simp [ainsert, alookup]
  | cons p t ih =>
    obtain ⟨a, b⟩ := p
    by_cases h : a = k
    · simp [ainsert, h, alookup]
    · simp [ainsert, h, alookup, ih]

theorem alookup_ainsert_ne (l : List (α × β)) {k k2 : α} (v : β) (h : k2 ≠ k) :
    alookup (ainsert l k v) k2 = alookup l k2 := by
  have h2 : ¬k = k2 := fun hh => h hh.symm
  induction l with
  | nil => simp [ainsert, alookup, h2]
  | cons p t ih =>
    obtain ⟨a, b⟩ := p
    simp only [ainsert]
    by_cases ha : a = k
    · rw [if_pos ha]
      simp only [alookup]
      rw [if_neg h2, if_neg (fun hh : a = k2 => h2 (ha ▸ hh))]
    · rw [if_neg ha]
      simp only [alookup]
      by_cases hb : a = k2
      · rw [if_pos hb, if_pos hb]
      · rw [if_neg hb, if_neg hb, ih]

theorem alookup_aerase (l : List (α × β)) (k k2 : α) :
    alookup (aerase l k) k2 = if k2 = k then none else alookup l k2 := by
  induction l with
  | nil => by_cases h : k2 = k <;> simp [aerase, alookup, h]
  | cons p t ih =>
    obtain ⟨a, b⟩ := p
    simp only [aerase]
    by_cases ha : a = k
    · rw [if_pos ha, ih]
      by_cases h2 : k2 = k
      · rw [if_pos h2, if_pos h2]
      · rw [if_neg h2, if_neg h2]
        simp only [alookup]
        rw [if_neg (fun hh : a = k2 => h2 (hh.symm.trans ha))]
    · rw [if_neg ha]
      simp only [alookup]
      by_cases h2 : a = k2
      · have hk2 : ¬k2 = k := fun hh => ha (h2.trans hh)
        rw [if_pos h2, if_neg hk2]
        rw [if_pos h2]
      · rw [if_neg h2, ih]
        by_cases hk2 : k2 = k
        · rw [if_pos hk2, if_pos hk2]
        · rw [if_neg hk2, if_neg hk2]
          rw [if_neg h2]

theorem mem_keys_of_alookup {l : List (α × β)} {k : α} {v : β}
    (h : alookup l k = some v) : k ∈ l.map Prod.fst := by
  induction l with
  | nil => simp [alookup] at h
  | cons p t ih =>
    obtain ⟨a, b⟩ := p
    by_cases ha : a = k
    · simp [ha]
    · simp only [alookup, if_neg ha] at h
      simp [ih h]

theorem alookup_eq_none_of_not_mem {l : List (α × β)} {k : α}
    (h : k ∉ l.map Prod.fst) : alookup l k = none := by
  induction l with
  | nil => simp [alookup]
  | cons p t ih =>
    obtain ⟨a, b⟩ := p
    simp only [List.map_cons, List.mem_cons] at h
    push_neg at h
    simp only [alookup]
    rw [if_neg (fun hh : a = k => h.1 hh.symm)]
    exact ih h.2

theorem alookup_isSome_iff_mem {l : List (α × β)} {k : α} :
    (alookup l k).isSome ↔ k ∈ l.map Prod.fst := by
  constructor
  · intro h
    obtain ⟨v, hv⟩ := Option.isSome_iff_exists.mp h
    exact mem_keys_of_alookup hv
  · intro h
    by_contra hc
    rw [Option.not_isSome_iff_eq_none] at hc
    induction l with
    | nil => simp at h
    | cons p t ih =>
      obtain ⟨a, b⟩ := p
      by_cases ha : a = k
      · simp [alookup, ha] at hc
      · simp only [alookup, if_neg ha] at hc
        simp only [List.map_cons, List.mem_cons] at h
        rcases h with h | h
        · exact ha h.symm
        · exact ih h hc

theorem keys_ainsert_of_mem {l : List (α × β)} {k : α} (v : β)
    (h : k ∈ l.map Prod.fst) :
    (ainsert l k v).map Prod.fst = l.map Prod.fst := by
  induction l with
  | nil => simp at h
  | cons p t ih =>
    obtain ⟨a, b⟩ := p
    by_cases ha : a = k
    · simp [ainsert, ha]
    · simp only [List.map_cons, List.mem_cons] at h
      rcases h with h | h
      · exact absurd h.symm ha
      · simp [ainsert, ha, ih h]

theorem keys_ainsert_of_not_mem {l : List (α × β)} {k : α} (v : β)
    (h : k ∉ l.map Prod.fst) :
    (ainsert l k v).map Prod.fst = l.map Prod.fst ++ [k] := by
  induction l with
  | nil => simp [ainsert]
  | cons p t ih =>
    obtain ⟨a, b⟩ := p
    simp only [List.map_cons, List.mem_cons] at h
    push_neg at h
    simp only [ainsert]
    rw [if_neg (fun hh : a = k => h.1 hh.symm)]
    simp [ih h.2]

theorem keys_ainsert_nodup {l : List (α × β)} {k : α} (v : β)
    (h : (l.map Prod.fst).Nodup) :
    ((ainsert l k v).map Prod.fst).Nodup := by
  by_cases hm : k ∈ l.map Prod.fst
  · rw [keys_ainsert_of_mem v hm]
    exact h
  · rw [keys_ainsert_of_not_mem v hm]
    exact List.Nodup.append h (List.nodup_singleton k)
      (by simpa [List.disjoint_singleton] using hm)

theorem ainsert_self {l : List (α × β)} {k : α} {v : β}
    (h : alookup l k = some v) : ainsert l k v = l := by
  induction l with
  | nil => simp [alookup] at h
  | cons p t ih =>
    obtain ⟨a, b⟩ := p
    simp only [alookup] at h
    simp only [ainsert]
    by_cases ha : a = k
    · rw [if_pos ha] at h
      rw [if_pos ha]
      obtain rfl : b = v := by injection h
      rw [ha]
    · rw [if_neg ha] at h
      rw [if_neg ha, ih h]

theorem keys_aerase_sublist (l : List (α × β)) (k : α) :
    ((aerase l k).map Prod.fst).Sublist (l.map Prod.fst) := by
  induction l with
  | nil => simp [aerase]
  | cons p t ih =>
    obtain ⟨a, b⟩ := p
    simp only [aerase]
    by_cases ha : a = k
    · rw [if_pos ha]
      exact ih.trans (List.sublist_cons_self _ _)
    · rw [if_neg ha]
      simpa using ih.cons₂ a

theorem alookup_foldl_aerase (L : List α) (fs : List (α × β)) (n : α) :
    alookup (L.foldl (fun a b => aerase a b) fs) n =
      if n ∈ L then none else alookup fs n := by
  induction L generalizing fs with
  | nil => simp
  | cons m M ih =>
    simp only [List.foldl_cons, List.mem_cons, ih]
    by_cases hm : n ∈ M
    · simp [hm]
    · by_cases hn : n = m
      · subst hn
        simp [hm, alookup_aerase]
      · simp [hm, hn, alookup_aerase]

theorem keys_foldl_aerase_sublist (L : List α) (fs : List (α × β)) :
    ((L.foldl (fun a b => aerase a b) fs).map Prod.fst).Sublist (fs.map Prod.fst) := by
  induction L generalizing fs with
  | nil => simp
  | cons m M ih =>
    exact (ih (aerase fs m)).trans (keys_aerase_sublist fs m)

theorem mem_insertReader {rs : List Nat} {n x : Nat} :
    x ∈ insertReader rs n ↔ x ∈ rs ∨ x = n := by
  unfold insertReader
  by_cases h : n ∈ rs
  · simp only [if_pos h]
    constructor
    · exact fun hx => Or.inl hx
    · rintro (hx | rfl)
      · exact hx
      · exact h
  · simp [if_neg h]

theorem mem_foldl_insertReader (ns : List Nat) (acc : List Nat) (x : Nat) :
    x ∈ ns.foldl insertReader acc ↔ x ∈ acc ∨ x ∈ ns := by
  induction ns generalizing acc with
  | nil => simp
  | cons m M ih =>
    simp only [List.foldl_cons, ih, mem_insertReader, List.mem_cons]
    tauto

omit [DecidableEq α] in
/-- A nodup list whose members are exactly `a` is the singleton `[a]`. -/
theorem nodup_members_singleton {l : List α} {a : α}
    (hn : l.Nodup) (hm : ∀ x, x ∈ l ↔ x = a) : l = [a] := by
  cases l with
  | nil =>
    exact absurd ((hm a).mpr rfl) (by simp)
  | cons x t =>
    have hx : x = a := (hm x).mp (by simp)
    subst hx
    cases t with
    | nil => rfl
    | cons y u =>
      have hy : y = x := (hm y).mp (by simp)
      subst hy
      simp at hn

end AssocLemmas

/-! ## File and replay lemmas -/

section FileLemmas

variable {sz : Command → Nat}

theorem fileSize_append (f g : List Command) :
    fileSize sz (f ++ g) = fileSize sz f + fileSize sz g := by
  induction f with
  | nil => simp [fileSize]
  | cons c cs ih => simp [fileSize, ih]; omega

theorem readAt_append_left {f : List Command} {off : Nat} {c : Command}
    (h : readAt sz f off = some c) (g : List Command) :
    readAt sz (f ++ g) off = some c := by
  induction f generalizing off with
  | nil => simp [readAt] at h
  | cons x xs ih =>
    simp only [readAt] at h ⊢
    by_cases h0 : off = 0
    · rw [if_pos h0] at h ⊢
      exact h
    · rw [if_neg h0] at h ⊢
      by_cases hlt : off < sz x
      · rw [if_pos hlt] at h
        exact absurd h (by simp)
      · rw [if_neg hlt] at h ⊢
        exact ih h

theorem readAt_boundary (hsz : ∀ c, 1 ≤ sz c) (f : List Command) (c : Command)
    (g : List Command) :
    readAt sz (f ++ c :: g) (fileSize sz f) = some c := by
  induction f with
  | nil => simp [readAt, fileSize]
  | cons x xs ih =>
    simp only [List.cons_append, readAt, fileSize]
    have hx := hsz x
    rw [if_neg (by omega), if_neg (by omega)]
    simpa using ih

theorem loadIndexFrom_append (n : Nat) (f g : List Command) (off : Nat) (idx : Index) :
    loadIndexFrom sz n (f ++ g) off idx =
      loadIndexFrom sz n g (off + fileSize sz f) (loadIndexFrom sz n f off idx) := by
  induction f generalizing off idx with
  | nil => simp [loadIndexFrom, fileSize]
  | cons c cs ih =>
    cases c with
    | Set k v =>
      simp only [List.cons_append, loadIndexFrom, fileSize, List.append_eq, ih,
        Nat.add_assoc]
    | Remove k =>
      simp only [List.cons_append, loadIndexFrom, fileSize, List.append_eq, ih,
        Nat.add_assoc]

theorem replayList_append (d : Dir) (ns ms : List Nat) (idx : Index) :
    replayList sz d (ns ++ ms) idx = replayList sz d ms (replayList sz d ns idx) := by
  induction ns generalizing idx with
  | nil => simp [replayList]
  | cons n ns ih => simp [replayList, ih]

theorem replayList_congr {d d2 : Dir} (ns : List Nat) (idx : Index)
    (h : ∀ n ∈ ns, alookup d n = alookup d2 n) :
    replayList sz d ns idx = replayList sz d2 ns idx := by
  induction ns generalizing idx with
  | nil => simp [replayList]
  | cons n ns ih =>
    simp only [replayList]
    rw [h n (by simp)]
    exact ih _ (fun m hm => h m (by simp [hm]))

theorem loadIndexFrom_keys_nodup (n : Nat) (f : List Command) (off : Nat) {idx : Index}
    (h : (idx.map Prod.fst).Nodup) :
    ((loadIndexFrom sz n f off idx).map Prod.fst).Nodup := by
  induction f generalizing off idx with
  | nil => simpa [loadIndexFrom] using h
  | cons c cs ih =>
    cases c with
    | Set k v => exact ih _ (keys_ainsert_nodup _ h)
    | Remove k => exact ih _ ((keys_aerase_sublist idx k).nodup h)

theorem replayList_keys_nodup (d : Dir) (ns : List Nat) {idx : Index}
    (h : (idx.map Prod.fst).Nodup) :
    ((replayList sz d ns idx).map Prod.fst).Nodup := by
  induction ns generalizing idx with
  | nil => simpa [replayList] using h
  | cons n ns ih => exact ih (loadIndexFrom_keys_nodup n _ 0 h)

/-- Replaying a segment `pre ++ rest` of file `n` from the offset at the end
of `pre` keeps every index entry well formed. -/
theorem loadIndexFrom_entriesOk (hsz : ∀ c, 1 ≤ sz c) {d : Dir} {n : Nat}
    {whole : List Command} (hf : alookup d n = some whole) :
    ∀ (rest pre : List Command), whole = pre ++ rest →
      ∀ {idx : Index}, entriesOk sz d idx →
        entriesOk sz d (loadIndexFrom sz n rest (fileSize sz pre) idx) := by
  intro rest
  induction rest with
  | nil =>
    intro pre _ idx hidx
    simpa [loadIndexFrom] using hidx
  | cons c cs ih =>
    intro pre hw idx hidx
    cases c with
    | Set k v =>
      have hstep : entriesOk sz d (ainsert idx k ⟨n, fileSize sz pre, sz (.Set k v)⟩) := by
        intro k2 pos2 hl
        by_cases hk : k2 = k
        · subst hk
          rw [alookup_ainsert_self] at hl
          obtain rfl : (⟨n, fileSize sz pre, sz (.Set k2 v)⟩ : CommandPosition) = pos2 := by
            injection hl
          refine ⟨whole, v, hf, ?_, rfl⟩
          rw [hw]
          exact readAt_boundary hsz pre _ cs
        · rw [alookup_ainsert_ne _ _ hk] at hl
          exact hidx k2 pos2 hl
      have := ih (pre ++ [Command.Set k v]) (by simp [hw]) hstep
      rw [fileSize_append] at this
      simpa [loadIndexFrom, fileSize] using this
    | Remove k =>
      have hstep : entriesOk sz d (aerase idx k) := by
        intro k2 pos2 hl
        rw [alookup_aerase] at hl
        by_cases hk : k2 = k
        · rw [if_pos hk] at hl
          exact absurd hl (by simp)
        · rw [if_neg hk] at hl
          exact hidx k2 pos2 hl
      have := ih (pre ++ [Command.Remove k]) (by simp [hw]) hstep
      rw [fileSize_append] at this
      simpa [loadIndexFrom, fileSize] using this

theorem replayList_entriesOk (hsz : ∀ c, 1 ≤ sz c) (d : Dir) (ns : List Nat)
    {idx : Index} (hidx : entriesOk sz d idx) :
    entriesOk sz d (replayList sz d ns idx) := by
  induction ns generalizing idx with
  | nil => simpa [replayList] using hidx
  | cons n ns ih =>
    simp only [replayList]
    apply ih
    cases hfn : alookup d n with
    | none =>
      simpa [load_index, hfn, loadIndexFrom] using hidx
    | some whole =>
      have := loadIndexFrom_entriesOk hsz hfn whole [] (by simp) hidx
      simpa [load_index, hfn, fileSize] using this

end FileLemmas

/-! ## Sorted-key lemmas and the invariant after `open` -/

theorem sortedKeys_perm (d : Dir) : List.Perm (sortedKeys d) (d.map Prod.fst) :=
  List.perm_insertionSort _ _

theorem mem_sortedKeys {d : Dir} {n : Nat} : n ∈ sortedKeys d ↔ n ∈ d.map Prod.fst :=
  (sortedKeys_perm d).mem_iff

theorem sortedKeys_sorted (d : Dir) : (sortedKeys d).Sorted (· ≤ ·) :=
  List.sorted_insertionSort _ _

theorem sortedKeys_nodup {d : Dir} (h : (d.map Prod.fst).Nodup) : (sortedKeys d).Nodup :=
  ((sortedKeys_perm d).nodup_iff).mpr h

theorem getLastD_mem : ∀ {l : List Nat}, l ≠ [] → l.getLast?.getD 0 ∈ l
  | [], h => absurd rfl h
  | [_], _ => by simp
  | a :: b :: u, _ => by
    rw [List.getLast?_cons_cons]
    exact List.mem_cons_of_mem a (getLastD_mem (by simp))

theorem sorted_mem_le_getLastD :
    ∀ {l : List Nat}, l.Sorted (· ≤ ·) → ∀ {x : Nat}, x ∈ l → x ≤ l.getLast?.getD 0
  | [], _, _, hx => by simp at hx
  | [a], _, x, hx => by
    simp only [List.mem_singleton] at hx
    simp [hx]
  | a :: b :: u, hs, x, hx => by
    rw [List.sorted_cons] at hs
    rw [List.getLast?_cons_cons]
    rcases List.mem_cons.mp hx with rfl | hx2
    · exact hs.1 _ (getLastD_mem (by simp))
    · exact sorted_mem_le_getLastD hs.2 hx2

theorem getLastD_concat (l : List Nat) (a : Nat) :
    (l ++ [a]).getLast?.getD 0 = a := by
  rw [List.getLast?_concat]
  rfl

theorem sortedKeys_ne_nil {d : Dir} (hne : d ≠ []) : sortedKeys d ≠ [] := by
  intro h
  apply hne
  have h2 : d.map Prod.fst = [] := ((h ▸ sortedKeys_perm d)).symm.eq_nil
  exact List.map_eq_nil_iff.mp h2

theorem sortedKeys_decomp {d : Dir} (hd : (d.map Prod.fst).Nodup) (hne : d ≠ []) :
    ∃ ns a, sortedKeys d = ns ++ [a] ∧ a ∉ ns := by
  have hne2 : sortedKeys d ≠ [] := sortedKeys_ne_nil hne
  refine ⟨(sortedKeys d).dropLast, (sortedKeys d).getLast hne2,
    (List.dropLast_append_getLast hne2).symm, ?_⟩
  have hnd := sortedKeys_nodup hd
  rw [← List.dropLast_append_getLast hne2, List.nodup_append] at hnd
  intro hm
  exact hnd.2.2 hm (by simp)

section OpenLemmas

variable {sz : Command → Nat}

theorem openStore_files (d : Dir) :
    (openStore sz d).files =
      ainsert d ((sortedKeys d).getLast?.getD 0)
        ((alookup d ((sortedKeys d).getLast?.getD 0)).getD []) := rfl

theorem openStore_readers (d : Dir) :
    (openStore sz d).readers =
      insertReader ((sortedKeys d).foldl insertReader [])
        ((sortedKeys d).getLast?.getD 0) := rfl

theorem openStore_index (d : Dir) : (openStore sz d).index = replayAll sz d := rfl

theorem openStore_log (d : Dir) :
    (openStore sz d).log_number = (sortedKeys d).getLast?.getD 0 := rfl

theorem openStore_unc (d : Dir) : (openStore sz d).uncompacted_bytes = 0 := rfl

theorem openStore_files_of_ne {d : Dir} (hd : (d.map Prod.fst).Nodup) (hne : d ≠ []) :
    (openStore sz d).files = d := by
  obtain ⟨ns, a, heq, _⟩ := sortedKeys_decomp hd hne
  have hlast : (sortedKeys d).getLast?.getD 0 = a := by rw [heq, getLastD_concat]
  have ha_mem : a ∈ d.map Prod.fst := mem_sortedKeys.mp (by rw [heq]; simp)
  rw [openStore_files, hlast]
  obtain ⟨f, hf⟩ := Option.isSome_iff_exists.mp (alookup_isSome_iff_mem.mpr ha_mem)
  rw [hf]
  exact ainsert_self (by simpa using hf)

theorem openStore_nil : openStore sz [] = ⟨[(0, [])], [0], [], 0, 0⟩ := rfl

theorem openStore_INV (hsz : ∀ c, 1 ≤ sz c) {d : Dir} (hd : (d.map Prod.fst).Nodup) :
    INV sz (openStore sz d) := by
  by_cases hne : d = []
  · subst hne
    rw [openStore_nil]
    constructor
    · simp
    · simp
    · intro n
      simp
    · simp
    · intro n hn
      simp at hn
      omega
    · intro k pos h
      simp [alookup] at h
    · intro k
      rfl
  · obtain ⟨ns, a, heq, _⟩ := sortedKeys_decomp hd hne
    have hlast : (sortedKeys d).getLast?.getD 0 = a := by rw [heq, getLastD_concat]
    have ha_mem : a ∈ d.map Prod.fst := mem_sortedKeys.mp (by rw [heq]; simp)
    have hfiles : (openStore sz d).files = d := openStore_files_of_ne hd hne
    have hlog : (openStore sz d).log_number = a := by rw [openStore_log, hlast]
    constructor
    · rw [hfiles]
      exact hd
    · rw [openStore_index]
      exact replayList_keys_nodup _ _ (by simp)
    · intro n
      rw [hfiles, openStore_readers, hlast, mem_insertReader, mem_foldl_insertReader]
      simp only [List.not_mem_nil, false_or]
      constructor
      · rintro (h | rfl)
        · exact mem_sortedKeys.mp h
        · exact ha_mem
      · intro h
        exact Or.inl (mem_sortedKeys.mpr h)
    · rw [hfiles, hlog]
      exact ha_mem
    · rw [hfiles, hlog]
      intro n hn
      have := sorted_mem_le_getLastD (sortedKeys_sorted d) (mem_sortedKeys.mpr hn)
      rw [hlast] at this
      exact this
    · rw [hfiles, openStore_index]
      exact replayList_entriesOk hsz d _ (fun k pos h => by simp [alookup] at h)
    · intro k
      rw [hfiles, openStore_index]

end OpenLemmas

/-! ## The invariant across `set` and `remove` (before compaction) -/

section WriteLemmas

variable {sz : Command → Nat}

theorem INV.active_decomp {s : KvStore} (h : INV sz s) :
    ∃ ns, sortedKeys s.files = ns ++ [s.log_number] ∧ s.log_number ∉ ns := by
  have hne : s.files ≠ [] := by
    intro hh
    have := h.activeMem
    rw [hh] at this
    simp at this
  obtain ⟨ns, b, heq, hnm⟩ := sortedKeys_decomp h.filesNodup hne
  have hb_mem : b ∈ s.files.map Prod.fst := mem_sortedKeys.mp (by rw [heq]; simp)
  have hlog_le : s.log_number ≤ b := by
    have := sorted_mem_le_getLastD (sortedKeys_sorted s.files)
      (mem_sortedKeys.mpr h.activeMem)
    rwa [heq, getLastD_concat] at this
  have hb : b = s.log_number := le_antisymm (h.activeMax b hb_mem) hlog_le
  subst hb
  exact ⟨ns, heq, hnm⟩

theorem INV.active_file {s : KvStore} (h : INV sz s) :
    alookup s.files s.log_number = some ((alookup s.files s.log_number).getD []) := by
  obtain ⟨f, hf⟩ := Option.isSome_iff_exists.mp (alookup_isSome_iff_mem.mpr h.activeMem)
  rw [hf]
  rfl

/-- Appending one record to the active (largest-id) segment appends its
replay step to the full-directory replay. -/
theorem replayAll_append_active {s : KvStore} (hinv : INV sz s) {f : List Command}
    (hf : alookup s.files s.log_number = some f) (c : Command) :
    replayAll sz (ainsert s.files s.log_number (f ++ [c])) =
      loadIndexFrom sz s.log_number [c] (fileSize sz f) (replayAll sz s.files) := by
  have hmem : s.log_number ∈ s.files.map Prod.fst := mem_keys_of_alookup hf
  have hkeys : (ainsert s.files s.log_number (f ++ [c])).map Prod.fst
      = s.files.map Prod.fst := keys_ainsert_of_mem _ hmem
  have hsk : sortedKeys (ainsert s.files s.log_number (f ++ [c])) = sortedKeys s.files := by
    unfold sortedKeys
    rw [hkeys]
  obtain ⟨ns, heq, hnm⟩ := hinv.active_decomp
  have hcongr : replayList sz (ainsert s.files s.log_number (f ++ [c])) ns []
      = replayList sz s.files ns [] :=
    replayList_congr ns [] (fun n hn =>
      alookup_ainsert_ne _ _ (fun hh : n = s.log_number => hnm (hh ▸ hn)))
  unfold replayAll
  rw [hsk, heq, replayList_append, replayList_append]
  simp only [replayList, load_index]
  rw [hcongr, alookup_ainsert_self, hf]
  simp only [Option.getD_some]
  rw [loadIndexFrom_append]
  simp only [Nat.zero_add]

theorem INV.get_none {s : KvStore} (_ : INV sz s) {k : String}
    (hl : alookup s.index k = none) : s.get sz k = some (.ok none) := by
  unfold KvStore.get
  rw [hl]

theorem INV.get_eq {s : KvStore} (hinv : INV sz s) {k : String} {pos : CommandPosition}
    (hl : alookup s.index k = some pos) :
    ∃ f v, alookup s.files pos.log_number = some f ∧
      readAt sz f pos.offset = some (.Set k v) ∧ s.get sz k = some (.ok (some v)) := by
  obtain ⟨f, v, hf, hr, _⟩ := hinv.entries k pos hl
  refine ⟨f, v, hf, hr, ?_⟩
  unfold KvStore.get
  rw [hl]
  simp only [if_pos ((hinv.readersEq _).mpr (mem_keys_of_alookup hf))]
  rw [hf]
  simp only [hr]

theorem afterSet_files (s : KvStore) (k v : String) :
    (s.afterSet sz k v).files =
      ainsert s.files s.log_number
        (((alookup s.files s.log_number).getD []) ++ [Command.Set k v]) := rfl

theorem afterSet_readers (s : KvStore) (k v : String) :
    (s.afterSet sz k v).readers = s.readers := rfl

theorem afterSet_index (s : KvStore) (k v : String) :
    (s.afterSet sz k v).index =
      ainsert s.index k
        ⟨s.log_number, fileSize sz ((alookup s.files s.log_number).getD []),
          sz (.Set k v)⟩ := rfl

theorem afterSet_log (s : KvStore) (k v : String) :
    (s.afterSet sz k v).log_number = s.log_number := rfl

theorem afterSet_INV (hsz : ∀ c, 1 ≤ sz c) {s : KvStore} (hinv : INV sz s) (k v : String) :
    INV sz (s.afterSet sz k v) := by
  have hf := hinv.active_file
  have hkeys : ((s.afterSet sz k v).files.map Prod.fst) = s.files.map Prod.fst := by
    rw [afterSet_files]
    exact keys_ainsert_of_mem _ hinv.activeMem
  constructor
  · rw [hkeys]
    exact hinv.filesNodup
  · rw [afterSet_index]
    exact keys_ainsert_nodup _ hinv.indexNodup
  · intro n
    rw [afterSet_readers, hkeys]
    exact hinv.readersEq n
  · rw [afterSet_log, hkeys]
    exact hinv.activeMem
  · rw [afterSet_log, hkeys]
    exact hinv.activeMax
  · intro k2 pos hl
    rw [afterSet_index] at hl
    by_cases hk : k2 = k
    · subst hk
      rw [alookup_ainsert_self] at hl
      obtain rfl : (⟨s.log_number, fileSize sz ((alookup s.files s.log_number).getD []),
          sz (.Set k2 v)⟩ : CommandPosition) = pos := by injection hl
      refine ⟨((alookup s.files s.log_number).getD []) ++ [Command.Set k2 v], v, ?_, ?_, rfl⟩
      · rw [afterSet_files]
        exact alookup_ainsert_self _ _ _
      · exact readAt_boundary hsz _ _ []
    · rw [alookup_ainsert_ne _ _ hk] at hl
      obtain ⟨f2, v2, hf2, hr2, hb2⟩ := hinv.entries k2 pos hl
      by_cases hlg : pos.log_number = s.log_number
      · obtain rfl : (alookup s.files s.log_number).getD [] = f2 := by
          rw [hlg] at hf2
          rw [hf] at hf2
          injection hf2
        refine ⟨((alookup s.files s.log_number).getD []) ++ [Command.Set k v], v2, ?_, ?_, hb2⟩
        · rw [afterSet_files, hlg]
          exact alookup_ainsert_self _ _ _
        · exact readAt_append_left hr2 _
      · refine ⟨f2, v2, ?_, hr2, hb2⟩
        rw [afterSet_files, alookup_ainsert_ne _ _ hlg]
        exact hf2
  · intro k2
    rw [afterSet_files, afterSet_index, replayAll_append_active hinv hf]
    simp only [loadIndexFrom]
    by_cases hk : k2 = k
    · subst hk
      rw [alookup_ainsert_self, alookup_ainsert_self]
    · rw [alookup_ainsert_ne _ _ hk, alookup_ainsert_ne _ _ hk]
      exact hinv.replayEq k2

theorem afterSet_get_self (hsz : ∀ c, 1 ≤ sz c) {s : KvStore} (hinv : INV sz s)
    (k v : String) : (s.afterSet sz k v).get sz k = some (.ok (some v)) := by
  have hinv2 := afterSet_INV hsz hinv k v
  have hl : alookup (s.afterSet sz k v).index k =
      some ⟨s.log_number, fileSize sz ((alookup s.files s.log_number).getD []),
        sz (.Set k v)⟩ := by
    rw [afterSet_index]
    exact alookup_ainsert_self _ _ _
  obtain ⟨f3, v3, hf3, hr3, hget⟩ := hinv2.get_eq hl
  rw [afterSet_files, alookup_ainsert_self] at hf3
  obtain rfl : ((alookup s.files s.log_number).getD []) ++ [Command.Set k v] = f3 := by
    injection hf3
  have hb := readAt_boundary hsz ((alookup s.files s.log_number).getD [])
    (Command.Set k v) []
  rw [hb] at hr3
  obtain rfl : v = v3 := by
    simpa using hr3
  exact hget

theorem afterSet_get_other (hsz : ∀ c, 1 ≤ sz c) {s : KvStore} (hinv : INV sz s)
    {k2 k : String} (v : String) (hne : k2 ≠ k) :
    (s.afterSet sz k v).get sz k2 = s.get sz k2 := by
  have hinv2 := afterSet_INV hsz hinv k v
  have hf := hinv.active_file
  cases hl : alookup s.index k2 with
  | none =>
    have h1 : alookup (s.afterSet sz k v).index k2 = none := by
      rw [afterSet_index, alookup_ainsert_ne _ _ hne]
      exact hl
    rw [hinv2.get_none h1, hinv.get_none hl]
  | some pos =>
    obtain ⟨f2, v2, hf2, hr2, hget⟩ := hinv.get_eq hl
    have h1 : alookup (s.afterSet sz k v).index k2 = some pos := by
      rw [afterSet_index, alookup_ainsert_ne _ _ hne]
      exact hl
    obtain ⟨f3, v3, hf3, hr3, hget2⟩ := hinv2.get_eq h1
    rw [hget, hget2]
    rw [afterSet_files] at hf3
    by_cases hlg : pos.log_number = s.log_number
    · rw [hlg, alookup_ainsert_self] at hf3
      obtain rfl : ((alookup s.files s.log_number).getD []) ++ [Command.Set k v] = f3 := by
        injection hf3
      obtain rfl : (alookup s.files s.log_number).getD [] = f2 := by
        rw [hlg, hf] at hf2
        injection hf2
      have := readAt_append_left hr2 [Command.Set k v]
      rw [this] at hr3
      obtain rfl : v2 = v3 := by
        simpa using hr3
      rfl
    · rw [alookup_ainsert_ne _ _ hlg] at hf3
      rw [hf2] at hf3
      obtain rfl : f2 = f3 := by injection hf3
      rw [hr2] at hr3
      obtain rfl : v2 = v3 := by
        simpa using hr3
      rfl

theorem afterRemove_files (s : KvStore) (k : String) (old : CommandPosition) :
    (s.afterRemove k old).files =
      ainsert s.files s.log_number
        (((alookup s.files s.log_number).getD []) ++ [Command.Remove k]) := rfl

theorem afterRemove_readers (s : KvStore) (k : String) (old : CommandPosition) :
    (s.afterRemove k old).readers = s.readers := rfl

theorem afterRemove_index (s : KvStore) (k : String) (old : CommandPosition) :
    (s.afterRemove k old).index = aerase s.index k := rfl

theorem afterRemove_log (s : KvStore) (k : String) (old : CommandPosition) :
    (s.afterRemove k old).log_number = s.log_number := rfl

theorem afterRemove_unc (s : KvStore) (k : String) (old : CommandPosition) :
    (s.afterRemove k old).uncompacted_bytes = s.uncompacted_bytes + old.bytes := rfl

theorem afterRemove_INV {s : KvStore} (hinv : INV sz s) (k : String)
    (old : CommandPosition) : INV sz (s.afterRemove k old) := by
  have hf := hinv.active_file
  have hkeys : ((s.afterRemove k old).files.map Prod.fst) = s.files.map Prod.fst := by
    rw [afterRemove_files]
    exact keys_ainsert_of_mem _ hinv.activeMem
  constructor
  · rw [hkeys]
    exact hinv.filesNodup
  · rw [afterRemove_index]
    exact (keys_aerase_sublist _ _).nodup hinv.indexNodup
  · intro n
    rw [afterRemove_readers, hkeys]
    exact hinv.readersEq n
  · rw [afterRemove_log, hkeys]
    exact hinv.activeMem
  · rw [afterRemove_log, hkeys]
    exact hinv.activeMax
  · intro k2 pos hl
    rw [afterRemove_index, alookup_aerase] at hl
    by_cases hk : k2 = k
    · rw [if_pos hk] at hl
      exact absurd hl (by simp)
    · rw [if_neg hk] at hl
      obtain ⟨f2, v2, hf2, hr2, hb2⟩ := hinv.entries k2 pos hl
      by_cases hlg : pos.log_number = s.log_number
      · obtain rfl : (alookup s.files s.log_number).getD [] = f2 := by
          rw [hlg] at hf2
          rw [hf] at hf2
          injection hf2
        refine ⟨((alookup s.files s.log_number).getD []) ++ [Command.Remove k], v2,
          ?_, ?_, hb2⟩
        · rw [afterRemove_files, hlg]
          exact alookup_ainsert_self _ _ _
        · exact readAt_append_left hr2 _
      · refine ⟨f2, v2, ?_, hr2, hb2⟩
        rw [afterRemove_files, alookup_ainsert_ne _ _ hlg]
        exact hf2
  · intro k2
    rw [afterRemove_files, afterRemove_index, replayAll_append_active hinv hf]
    simp only [loadIndexFrom]
    rw [alookup_aerase, alookup_aerase]
    by_cases hk : k2 = k
    · rw [if_pos hk, if_pos hk]
    · rw [if_neg hk, if_neg hk]
      exact hinv.replayEq k2

theorem afterRemove_get_self {s : KvStore} (hinv : INV sz s) (k : String)
    (old : CommandPosition) : (s.afterRemove k old).get sz k = some (.ok none) := by
  apply (afterRemove_INV hinv k old).get_none
  rw [afterRemove_index, alookup_aerase]
  simp

theorem afterRemove_get_other {s : KvStore} (hinv : INV sz s) {k2 k : String}
    (old : CommandPosition) (hne : k2 ≠ k) :
    (s.afterRemove k old).get sz k2 = s.get sz k2 := by
  have hinv2 := afterRemove_INV hinv k old
  have hf := hinv.active_file
  cases hl : alookup s.index k2 with
  | none =>
    have h1 : alookup (s.afterRemove k old).index k2 = none := by
      rw [afterRemove_index, alookup_aerase, if_neg hne]
      exact hl
    rw [hinv2.get_none h1, hinv.get_none hl]
  | some pos =>
    obtain ⟨f2, v2, hf2, hr2, hget⟩ := hinv.get_eq hl
    have h1 : alookup (s.afterRemove k old).index k2 = some pos := by
      rw [afterRemove_index, alookup_aerase, if_neg hne]
      exact hl
    obtain ⟨f3, v3, hf3, hr3, hget2⟩ := hinv2.get_eq h1
    rw [hget, hget2]
    rw [afterRemove_files] at hf3
    by_cases hlg : pos.log_number = s.log_number
    · rw [hlg, alookup_ainsert_self] at hf3
      obtain rfl : ((alookup s.files s.log_number).getD []) ++ [Command.Remove k] = f3 := by
        injection hf3
      obtain rfl : (alookup s.files s.log_number).getD [] = f2 := by
        rw [hlg, hf] at hf2
        injection hf2
      have := readAt_append_left hr2 [Command.Remove k]
      rw [this] at hr3
      obtain rfl : v2 = v3 := by
        simpa using hr3
      rfl
    · rw [alookup_ainsert_ne _ _ hlg] at hf3
      rw [hf2] at hf3
      obtain rfl : f2 = f3 := by injection hf3
      rw [hr2] at hr3
      obtain rfl : v2 = v3 := by
        simpa using hr3
      rfl

end WriteLemmas

/-! ## Compaction lemmas -/

section CompactLemmas

variable {sz : Command → Nat}

theorem copyLive_cons_step {newId : Nat} {rs : List Nat} {k : String}
    {pos : CommandPosition} {rest : Index} {files : Dir} {f : List Command} {v : String}
    (hrs : pos.log_number ∈ rs) (hfl : alookup files pos.log_number = some f)
    (hrd : readAt sz f pos.offset = some (.Set k v))
    (hbytes : pos.bytes = sz (.Set k v)) :
    copyLive sz newId rs ((k, pos) :: rest) files =
      match copyLive sz newId rs rest
          (ainsert files newId (((alookup files newId).getD []) ++ [Command.Set k v])) with
      | some (idx, files2) =>
          some ((k, ⟨newId, fileSize sz ((alookup files newId).getD []), pos.bytes⟩)
            :: idx, files2)
      | none => none := by
  simp only [copyLive]
  rw [if_pos hrs, hfl]
  simp only [hrd]
  rw [if_pos hbytes.symm]

/-- The full characterization of the copy loop of `compact` under the store
invariant's entry conditions: it succeeds, repoints every entry into the
new segment at consecutive offsets holding the copied `Set` records, leaves
every other file untouched, and replaying the appended records reproduces
exactly the repointed entries. -/
theorem copyLive_spec (hsz : ∀ c, 1 ≤ sz c) {newId : Nat} {rs : List Nat} :
    ∀ (ents : Index) (files : Dir) (cur : List Command),
      alookup files newId = some cur →
      (ents.map Prod.fst).Nodup →
      (∀ k pos, alookup ents k = some pos → pos.log_number ≠ newId ∧
        pos.log_number ∈ rs ∧
        ∃ f v, alookup files pos.log_number = some f ∧
          readAt sz f pos.offset = some (.Set k v) ∧ pos.bytes = sz (.Set k v)) →
      ∃ idx2 files2 ext,
        copyLive sz newId rs ents files = some (idx2, files2) ∧
        idx2.map Prod.fst = ents.map Prod.fst ∧
        (∀ n, n ≠ newId → alookup files2 n = alookup files n) ∧
        files2.map Prod.fst = files.map Prod.fst ∧
        alookup files2 newId = some (cur ++ ext) ∧
        (∀ k, alookup idx2 k = none ↔ alookup ents k = none) ∧
        (∀ k pos2, alookup idx2 k = some pos2 →
          pos2.log_number = newId ∧
          ∃ v pos, alookup ents k = some pos ∧ pos2.bytes = pos.bytes ∧
            readAt sz (cur ++ ext) pos2.offset = some (.Set k v) ∧
            pos2.bytes = sz (.Set k v) ∧
            ∃ f, alookup files pos.log_number = some f ∧
              readAt sz f pos.offset = some (.Set k v)) ∧
        (∀ idx0 k, (alookup idx2 k).isSome →
          alookup (loadIndexFrom sz newId ext (fileSize sz cur) idx0) k
            = alookup idx2 k) ∧
        (∀ idx0 k, alookup idx2 k = none →
          alookup (loadIndexFrom sz newId ext (fileSize sz cur) idx0) k
            = alookup idx0 k) := by
  intro ents
  induction ents with
  | nil =>
    intro files cur hcur _ _
    refine ⟨[], files, [], rfl, rfl, fun n _ => rfl, rfl, by simpa using hcur,
      fun k => Iff.rfl, ?_, ?_, ?_⟩
    · intro k pos2 h
      simp [alookup] at h
    · intro idx0 k h
      simp [alookup] at h
    · intro idx0 k _
      simp [loadIndexFrom]
  | cons hd rest ih =>
    obtain ⟨k, pos⟩ := hd
    intro files cur hcur hnodup hok
    have hk_self : alookup ((k, pos) :: rest) k = some pos := by
      simp [alookup]
    obtain ⟨hnew, hrs, f, v, hfl, hrd, hbytes⟩ := hok k pos hk_self
    have hknotin : k ∉ rest.map Prod.fst := by
      have := hnodup
      simp only [List.map_cons] at this
      exact this.not_mem
    have hrest_lookup : ∀ k2 pos2, alookup rest k2 = some pos2 →
        alookup ((k, pos) :: rest) k2 = some pos2 := by
      intro k2 pos2 h2
      have hne : k ≠ k2 := by
        intro hh
        exact hknotin (hh ▸ mem_keys_of_alookup h2)
      simp only [alookup, if_neg hne]
      exact h2
    -- the step state
    have hnfdef : (alookup files newId).getD [] = cur := by rw [hcur]; rfl
    have hnewIdmem : newId ∈ files.map Prod.fst := by
      have : (alookup files newId).isSome := by rw [hcur]; rfl
      exact alookup_isSome_iff_mem.mp this
    have hcur1 : alookup (ainsert files newId (((alookup files newId).getD [])
        ++ [Command.Set k v])) newId = some (cur ++ [Command.Set k v]) := by
      rw [hnfdef]
      exact alookup_ainsert_self _ _ _
    have hok1 : ∀ k2 pos2, alookup rest k2 = some pos2 → pos2.log_number ≠ newId ∧
        pos2.log_number ∈ rs ∧
        ∃ f2 v2, alookup (ainsert files newId (((alookup files newId).getD [])
            ++ [Command.Set k v])) pos2.log_number = some f2 ∧
          readAt sz f2 pos2.offset = some (.Set k2 v2) ∧ pos2.bytes = sz (.Set k2 v2) := by
      intro k2 pos2 h2
      obtain ⟨hne2, hrs2, f2, v2, hf2, hr2, hb2⟩ := hok k2 pos2 (hrest_lookup k2 pos2 h2)
      exact ⟨hne2, hrs2, f2, v2, by rw [alookup_ainsert_ne _ _ hne2]; exact hf2, hr2, hb2⟩
    obtain ⟨idx2, files2, ext, hcopy, hkeysIdx, hlook, hkeysFiles, hnewF, hnoneIff,
      hent, hload1, hload2⟩ :=
      ih (ainsert files newId (((alookup files newId).getD []) ++ [Command.Set k v]))
        (cur ++ [Command.Set k v]) hcur1 (by
          simp only [List.map_cons] at hnodup
          exact hnodup.of_cons) hok1
    refine ⟨(k, ⟨newId, fileSize sz cur, pos.bytes⟩) :: idx2, files2,
      Command.Set k v :: ext, ?_, ?_, ?_, ?_, ?_, ?_, ?_, ?_, ?_⟩
    · rw [copyLive_cons_step hrs hfl hrd hbytes, hcopy, hnfdef]
    · simp [hkeysIdx]
    · intro n hn
      rw [hlook n hn, alookup_ainsert_ne _ _ hn]
    · rw [hkeysFiles, keys_ainsert_of_mem _ hnewIdmem]
    · rw [hnewF]
      simp
    · intro k2
      by_cases hk : k = k2
      · subst hk
        simp [alookup]
      · simp only [alookup, if_neg hk]
        exact hnoneIff k2
    · intro k2 pos2 hl2
      simp only [alookup] at hl2
      by_cases hk : k = k2
      · subst hk
        rw [if_pos rfl] at hl2
        obtain rfl : (⟨newId, fileSize sz cur, pos.bytes⟩ : CommandPosition) = pos2 := by
          injection hl2
        refine ⟨rfl, v, pos, hk_self, rfl, ?_, hbytes, f, hfl, hrd⟩
        exact readAt_boundary hsz cur _ ext
      · rw [if_neg hk] at hl2
        obtain ⟨hpl, v2, pos', hrest2, hb2, hread2, hsz2, f2, hf2a, hf2b⟩ :=
          hent k2 pos2 hl2
        obtain ⟨hne2, _, _⟩ := hok k2 pos' (hrest_lookup k2 pos' hrest2)
        refine ⟨hpl, v2, pos', hrest_lookup k2 pos' hrest2, hb2, ?_, hsz2, f2, ?_, hf2b⟩
        · rw [List.append_assoc] at hread2
          simpa using hread2
        · rw [alookup_ainsert_ne _ _ hne2] at hf2a
          exact hf2a
    · intro idx0 k2 hsome
      simp only [loadIndexFrom]
      have hoffeq : fileSize sz cur + sz (Command.Set k v)
          = fileSize sz (cur ++ [Command.Set k v]) := by
        rw [fileSize_append]
        simp [fileSize]
      rw [hoffeq]
      simp only [alookup] at hsome ⊢
      by_cases hk : k = k2
      · subst hk
        rw [if_pos rfl]
        have hnone2 : alookup idx2 k = none := by
          apply alookup_eq_none_of_not_mem
          rw [hkeysIdx]
          intro hm
          exact hknotin hm
        rw [hload2 _ k hnone2, alookup_ainsert_self]
        rw [hbytes]
      · rw [if_neg hk] at hsome ⊢
        rw [hload1 _ k2 hsome]
    · intro idx0 k2 hnone
      simp only [loadIndexFrom]
      have hoffeq : fileSize sz cur + sz (Command.Set k v)
          = fileSize sz (cur ++ [Command.Set k v]) := by
        rw [fileSize_append]
        simp [fileSize]
      rw [hoffeq]
      simp only [alookup] at hnone
      by_cases hk : k = k2
      · rw [if_pos hk] at hnone
        exact absurd hnone (by simp)
      · rw [if_neg hk] at hnone
        rw [hload2 _ k2 hnone, alookup_ainsert_ne _ _ (fun hh => hk hh.symm)]

end CompactLemmas

/-- Full specification of `KvStore::compact` on states satisfying the
invariant: it succeeds, preserves every `get`, repoints every index entry
into segment `log_number + 1`, deletes every older segment and its reader,
and resets `uncompacted_bytes`. -/
theorem compact_spec (hsz : ∀ c, 1 ≤ sz c) {s : KvStore} (hinv : INV sz s) :
    ∃ s2, s.compact sz = some s2 ∧ INV sz s2 ∧
      s2.log_number = s.log_number + 1 ∧
      s2.uncompacted_bytes = 0 ∧
      (∀ k, s2.get sz k = s.get sz k) ∧
      (∀ k pos, alookup s2.index k = some pos → pos.log_number = s.log_number + 1) ∧
      (∀ n, n < s.log_number + 1 → alookup s2.files n = none ∧ n ∉ s2.readers) ∧
      (∀ k, alookup s2.index k = none ↔ alookup s.index k = none) := by
  set newId := s.log_number + 1 with hnewId
  have hnotin_files : newId ∉ s.files.map Prod.fst := by
    intro hm
    have := hinv.activeMax newId hm
    omega
  have hnotin_readers : newId ∉ s.readers := by
    intro hm
    exact hnotin_files ((hinv.readersEq newId).mp hm)
  have hlnone : alookup s.files newId = none := alookup_eq_none_of_not_mem hnotin_files
  have hcur : alookup (ainsert s.files newId []) newId = some [] :=
    alookup_ainsert_self _ _ _
  have hok : ∀ k pos, alookup s.index k = some pos → pos.log_number ≠ newId ∧
      pos.log_number ∈ insertReader s.readers newId ∧
      ∃ f v, alookup (ainsert s.files newId []) pos.log_number = some f ∧
        readAt sz f pos.offset = some (.Set k v) ∧ pos.bytes = sz (.Set k v) := by
    intro k pos hl
    obtain ⟨f, v, hf, hr, hb⟩ := hinv.entries k pos hl
    have hmem : pos.log_number ∈ s.files.map Prod.fst := mem_keys_of_alookup hf
    have hne : pos.log_number ≠ newId := by
      have := hinv.activeMax _ hmem
      omega
    refine ⟨hne, mem_insertReader.mpr (Or.inl ((hinv.readersEq _).mpr hmem)), f, v, ?_, hr, hb⟩
    rw [alookup_ainsert_ne _ _ hne]
    exact hf
  obtain ⟨idx2, files2, ext, hcopy, hkeysIdx, hlook, hkeysFiles, hnewF, hnoneIff,
    hent, hload1, hload2⟩ :=
    copyLive_spec hsz s.index (ainsert s.files newId []) [] hcur hinv.indexNodup hok
  rw [List.nil_append] at hnewF
  have hrs0 : insertReader s.readers newId = s.readers ++ [newId] := by
    unfold insertReader
    rw [if_neg hnotin_readers]
  have hreaders_lt : ∀ r ∈ s.readers, r < newId := by
    intro r hr
    have := hinv.activeMax r ((hinv.readersEq r).mp hr)
    omega
  have hstale : (insertReader s.readers newId).filter (fun n => decide (n < newId))
      = s.readers := by
    rw [hrs0, List.filter_append]
    rw [List.filter_eq_self.mpr (fun a ha => by simpa using hreaders_lt a ha)]
    simp
  have hrs1 : (insertReader s.readers newId).filter (fun n => !decide (n < newId))
      = [newId] := by
    rw [hrs0, List.filter_append]
    rw [List.filter_eq_nil_iff.mpr (fun a ha => by simpa using hreaders_lt a ha)]
    simp
  have hcompact : s.compact sz = some ⟨((insertReader s.readers newId).filter
        (fun n => decide (n < newId))).foldl (fun fs n => aerase fs n) files2,
      (insertReader s.readers newId).filter (fun n => !decide (n < newId)),
      idx2, newId, 0⟩ := by
    simp only [KvStore.compact, new_log_file, hlnone, Option.getD_none]
    rw [← hnewId, hcopy]
  rw [hstale, hrs1] at hcompact
  -- lookups in the final directory
  have hfiles3 : ∀ n, alookup (s.readers.foldl (fun fs n => aerase fs n) files2) n
      = if n = newId then some ext else none := by
    intro n
    rw [alookup_foldl_aerase]
    by_cases hn : n = newId
    · subst hn
      rw [if_neg hnotin_readers, if_pos rfl]
      exact hnewF
    · rw [if_neg hn]
      by_cases hr : n ∈ s.readers
      · rw [if_pos hr]
      · rw [if_neg hr]
        rw [hlook n hn, alookup_ainsert_ne _ _ hn]
        exact alookup_eq_none_of_not_mem (fun hm => hr ((hinv.readersEq n).mpr hm))
  have hkeys3 : (s.readers.foldl (fun fs n => aerase fs n) files2).map Prod.fst
      = [newId] := by
    apply nodup_members_singleton
    · apply (keys_foldl_aerase_sublist _ _).nodup
      rw [hkeysFiles, keys_ainsert_of_not_mem _ hnotin_files]
      refine List.Nodup.append hinv.filesNodup (List.nodup_singleton _) ?_
      simpa [List.disjoint_singleton] using hnotin_files
    · intro x
      rw [← alookup_isSome_iff_mem, hfiles3]
      by_cases hx : x = newId
      · simp [hx]
      · simp [hx]
  have hsorted3 : sortedKeys (s.readers.foldl (fun fs n => aerase fs n) files2)
      = [newId] := by
    unfold sortedKeys
    rw [hkeys3]
    rfl
  have hreplay3 : ∀ k, alookup (replayAll sz
      (s.readers.foldl (fun fs n => aerase fs n) files2)) k = alookup idx2 k := by
    intro k
    unfold replayAll
    rw [hsorted3]
    simp only [replayList, load_index]
    rw [hfiles3 newId, if_pos rfl]
    simp only [Option.getD_some]
    cases hl2 : alookup idx2 k with
    | none =>
      have := hload2 [] k hl2
      simp only [fileSize] at this
      rw [this]
      rfl
    | some pos2 =>
      have := hload1 [] k (by rw [hl2]; rfl)
      simp only [fileSize] at this
      rw [this, hl2]
  have hinv2 : INV sz (⟨s.readers.foldl (fun fs n => aerase fs n) files2,
      [newId], idx2, newId, 0⟩ : KvStore) := by
    constructor
    · rw [hkeys3]
      simp
    · rw [hkeysIdx]
      exact hinv.indexNodup
    · intro n
      rw [hkeys3]
    · rw [hkeys3]
      simp
    · rw [hkeys3]
      intro n hn
      simp only [List.mem_singleton] at hn
      subst hn
      exact le_refl _
    · intro k pos hl
      obtain ⟨hpl, v, pos', _, _, hread, hszk, _⟩ := hent k pos hl
      rw [List.nil_append] at hread
      refine ⟨ext, v, ?_, hread, hszk⟩
      rw [hpl]
      rw [hfiles3 newId, if_pos rfl]
    · exact hreplay3
  -- get preservation
  have hget : ∀ k, (⟨s.readers.foldl (fun fs n => aerase fs n) files2,
      [newId], idx2, newId, 0⟩ : KvStore).get sz k = s.get sz k := by
    intro k
    cases hl : alookup s.index k with
    | none =>
      rw [hinv.get_none hl, hinv2.get_none ((hnoneIff k).mpr hl)]
    | some pos =>
      obtain ⟨f, v, hf, hr, hgs⟩ := hinv.get_eq hl
      cases hl2 : alookup idx2 k with
      | none =>
        rw [(hnoneIff k).mp hl2] at hl
        exact absurd hl (by simp)
      | some pos2 =>
        obtain ⟨hpl, v2, pos', hlents, hb, hread, hszk, f2, hf2a, hf2b⟩ :=
          hent k pos2 hl2
        have hpp : pos' = pos := by
          have h2 := hlents
          rw [hl] at h2
          injection h2 with h3
          exact h3.symm
        rw [hpp] at hf2a hf2b
        obtain ⟨hne, _, _⟩ := hok k pos hl
        rw [alookup_ainsert_ne _ _ hne] at hf2a
        obtain rfl : f = f2 := by
          rw [hf] at hf2a
          injection hf2a
        obtain rfl : v = v2 := by
          rw [hr] at hf2b
          simpa using hf2b
        obtain ⟨f3, v3, hf3, hr3, hg3⟩ := hinv2.get_eq hl2
        rw [hpl] at hf3
        rw [hfiles3 newId, if_pos rfl] at hf3
        obtain rfl : ext = f3 := by injection hf3
        rw [List.nil_append] at hread
        rw [hread] at hr3
        obtain rfl : v = v3 := by simpa using hr3
        rw [hg3, hgs]
  refine ⟨_, hcompact, hinv2, rfl, rfl, hget, ?_, ?_, hnoneIff⟩
  · intro k pos hl
    exact (hent k pos hl).1
  · intro n hn
    constructor
    · rw [hfiles3 n, if_neg (by omega)]
    · simp only [List.mem_singleton]
      omega

/-! ## Operation specifications and the reachability invariant -/

section OpLemmas

variable {sz : Command → Nat}

theorem set_noc {s : KvStore} {k v : String}
    (hthr : ¬(s.afterSet sz k v).uncompacted_bytes > COMPACTION_THRESHOLD_BYTES) :
    s.set sz k v = some (s.afterSet sz k v) := by
  simp only [KvStore.set]
  rw [if_neg hthr]

theorem remove_absent {s : KvStore} {k : String} (hl : alookup s.index k = none) :
    s.remove sz k = some (.error .KeyNotFound, s) := by
  simp only [KvStore.remove, hl]

theorem remove_present_noc {s : KvStore} {k : String} {old : CommandPosition}
    (hl : alookup s.index k = some old)
    (hthr : ¬(s.afterRemove k old).uncompacted_bytes > COMPACTION_THRESHOLD_BYTES) :
    s.remove sz k = some (.ok (), s.afterRemove k old) := by
  simp only [KvStore.remove, hl]
  rw [if_neg hthr]

theorem set_spec (hsz : ∀ c, 1 ≤ sz c) {s : KvStore} (hinv : INV sz s) (k v : String) :
    ∃ s1, s.set sz k v = some s1 ∧ INV sz s1 ∧
      s1.get sz k = some (.ok (some v)) ∧
      (∀ k2, k2 ≠ k → s1.get sz k2 = s.get sz k2) := by
  have hinv1 := afterSet_INV hsz hinv k v
  by_cases hc : (s.afterSet sz k v).uncompacted_bytes > COMPACTION_THRESHOLD_BYTES
  · obtain ⟨s2, hc2, hinv2, _, _, hgets, _, _, _⟩ := compact_spec hsz hinv1
    refine ⟨s2, ?_, hinv2, ?_, ?_⟩
    · simp only [KvStore.set]
      rw [if_pos hc]
      exact hc2
    · rw [hgets k, afterSet_get_self hsz hinv k v]
    · intro k2 hk2
      rw [hgets k2, afterSet_get_other hsz hinv v hk2]
  · exact ⟨s.afterSet sz k v, set_noc hc, hinv1, afterSet_get_self hsz hinv k v,
      fun k2 hk2 => afterSet_get_other hsz hinv v hk2⟩

theorem remove_spec (hsz : ∀ c, 1 ≤ sz c) {s : KvStore} (hinv : INV sz s)
    {k : String} {old : CommandPosition} (hl : alookup s.index k = some old) :
    ∃ s1, s.remove sz k = some (.ok (), s1) ∧ INV sz s1 ∧
      s1.get sz k = some (.ok none) ∧
      (∀ k2, k2 ≠ k → s1.get sz k2 = s.get sz k2) := by
  have hinv1 := afterRemove_INV hinv k old
  by_cases hc : (s.afterRemove k old).uncompacted_bytes > COMPACTION_THRESHOLD_BYTES
  · obtain ⟨s2, hc2, hinv2, _, _, hgets, _, _, _⟩ := compact_spec hsz hinv1
    refine ⟨s2, ?_, hinv2, ?_, ?_⟩
    · simp only [KvStore.remove, hl]
      rw [if_pos hc, hc2]
    · rw [hgets k, afterRemove_get_self hinv k old]
    · intro k2 hk2
      rw [hgets k2, afterRemove_get_other hinv old hk2]
  · exact ⟨s.afterRemove k old, remove_present_noc hl hc, hinv1,
      afterRemove_get_self hinv k old,
      fun k2 hk2 => afterRemove_get_other hinv old hk2⟩

theorem reach_INV (hsz : ∀ c, 1 ≤ sz c) {s : KvStore} (h : Reachable sz s) :
    INV sz s := by
  induction h with
  | openR d hd => exact openStore_INV hsz hd
  | setR hr hset ih =>
    rename_i s0 k v s1
    obtain ⟨s1', hs1, hinv1, _, _⟩ := set_spec hsz ih k v
    rw [hset] at hs1
    obtain rfl : s1 = s1' := by injection hs1
    exact hinv1
  | removeR hr hrem ih =>
    rename_i s0 k r s1
    cases hl : alookup s0.index k with
    | none =>
      rw [remove_absent hl] at hrem
      have h2 : (Except.error KvsError.KeyNotFound, s0) = (r, s1) := by injection hrem
      have h3 : s0 = s1 := congrArg Prod.snd h2
      exact h3 ▸ ih
    | some old =>
      obtain ⟨s1', hs1, hinv1, _, _⟩ := remove_spec hsz ih hl
      rw [hrem] at hs1
      have h2 : (r, s1) = (Except.ok (), s1') := by injection hs1
      have h3 : s1 = s1' := congrArg Prod.snd h2
      exact h3 ▸ hinv1

theorem INV.get_isSome {s : KvStore} (hinv : INV sz s) (k : String) :
    (s.get sz k).isSome := by
  cases hl : alookup s.index k with
  | none => rw [hinv.get_none hl]; rfl
  | some pos =>
    obtain ⟨f, v, _, _, hget⟩ := hinv.get_eq hl
    rw [hget]
    rfl

theorem INV.compact_isSome (hsz : ∀ c, 1 ≤ sz c) {s : KvStore} (hinv : INV sz s) :
    (s.compact sz).isSome := by
  obtain ⟨s2, hc, _⟩ := compact_spec hsz hinv
  rw [hc]
  rfl

/-- Re-opening the directory of a store satisfying the invariant reproduces
every `get` result. -/
theorem reopen_get (hsz : ∀ c, 1 ≤ sz c) {s : KvStore} (hinv : INV sz s) (k : String) :
    (openStore sz s.files).get sz k = s.get sz k := by
  have hne : s.files ≠ [] := by
    intro hh
    have := hinv.activeMem
    rw [hh] at this
    simp at this
  have hfeq : (openStore sz s.files).files = s.files :=
    openStore_files_of_ne hinv.filesNodup hne
  have hinvo : INV sz (openStore sz s.files) := openStore_INV hsz hinv.filesNodup
  cases hl : alookup s.index k with
  | none =>
    have hl2 : alookup (openStore sz s.files).index k = none := by
      rw [openStore_index]
      rw [hinv.replayEq k]
      exact hl
    rw [hinvo.get_none hl2, hinv.get_none hl]
  | some pos =>
    obtain ⟨f, v, hf, hr, hget⟩ := hinv.get_eq hl
    have hl2 : alookup (openStore sz s.files).index k = some pos := by
      rw [openStore_index]
      rw [hinv.replayEq k]
      exact hl
    obtain ⟨f3, v3, hf3, hr3, hget2⟩ := hinvo.get_eq hl2
    rw [hfeq] at hf3
    obtain rfl : f = f3 := by
      rw [hf] at hf3
      injection hf3
    rw [hr] at hr3
    obtain rfl : v = v3 := by simpa using hr3
    rw [hget, hget2]

/-- Operations that do not touch key `k` preserve the result of `get k`. -/
theorem applyOps_preserve (hsz : ∀ c, 1 ≤ sz c) :
    ∀ (ops : List Op) {s : KvStore}, INV sz s → ∀ (s2 : KvStore),
      (∀ op ∈ ops, op.touches k = false) →
      applyOps sz s ops = some s2 → INV sz s2 ∧ s2.get sz k = s.get sz k := by
  intro ops
  induction ops with
  | nil =>
    intro s hinv s2 _ happ
    simp only [applyOps] at happ
    obtain rfl : s = s2 := by injection happ
    exact ⟨hinv, rfl⟩
  | cons op ops ih =>
    intro s hinv s2 hops happ
    simp only [applyOps] at happ
    cases hop : applyOp sz s op with
    | none =>
      rw [hop] at happ
      exact absurd happ (by simp)
    | some s1 =>
      rw [hop] at happ
      have hto : op.touches k = false := hops op (by simp)
      have hstep : INV sz s1 ∧ s1.get sz k = s.get sz k := by
        cases op with
        | set k2 v2 =>
          simp only [Op.touches] at hto
          have hk2 : k2 ≠ k := beq_eq_false_iff_ne.mp hto
          obtain ⟨s1', hset, hinv1, _, hothers⟩ := set_spec hsz hinv k2 v2
          simp only [applyOp] at hop
          rw [hset] at hop
          obtain rfl : s1' = s1 := by injection hop
          exact ⟨hinv1, hothers k (fun hh => hk2 hh.symm)⟩
        | remove k2 =>
          simp only [Op.touches] at hto
          have hk2 : k2 ≠ k := beq_eq_false_iff_ne.mp hto
          simp only [applyOp] at hop
          cases hl : alookup s.index k2 with
          | none =>
            rw [remove_absent hl] at hop
            simp only [Option.map_some'] at hop
            obtain rfl : s = s1 := by injection hop
            exact ⟨hinv, rfl⟩
          | some old =>
            obtain ⟨s1', hrem, hinv1, _, hothers⟩ := remove_spec hsz hinv hl
            rw [hrem] at hop
            simp only [Option.map_some'] at hop
            obtain rfl : s1' = s1 := by injection hop
            exact ⟨hinv1, hothers k (fun hh => hk2 hh.symm)⟩
      obtain ⟨hinv1, hgetk⟩ := hstep
      obtain ⟨hinv2, hget2⟩ := ih hinv1 s2 (fun op2 h2 => hops op2 (by simp [h2])) happ
      exact ⟨hinv2, hget2.trans hgetk⟩

end OpLemmas

section TotalLemmas

variable {sz : Command → Nat}

theorem afterSet_unc (s : KvStore) (k v : String) :
    (s.afterSet sz k v).uncompacted_bytes =
      match alookup s.index k with
      | some old => s.uncompacted_bytes + old.bytes
      | none => s.uncompacted_bytes := rfl

theorem applyOp_total (hsz : ∀ c, 1 ≤ sz c) {s : KvStore} (hinv : INV sz s) (op : Op) :
    ∃ s1, applyOp sz s op = some s1 ∧ INV sz s1 := by
  cases op with
  | set k v =>
    obtain ⟨s1, h1, h2, _⟩ := set_spec hsz hinv k v
    exact ⟨s1, by simp [applyOp, h1], h2⟩
  | remove k =>
    cases hl : alookup s.index k with
    | none => exact ⟨s, by simp [applyOp, remove_absent hl], hinv⟩
    | some old =>
      obtain ⟨s1, h1, h2, _⟩ := remove_spec hsz hinv hl
      exact ⟨s1, by simp [applyOp, h1], h2⟩

theorem applyOps_total (hsz : ∀ c, 1 ≤ sz c) :
    ∀ (ops : List Op) {s : KvStore}, INV sz s → ∃ s2, applyOps sz s ops = some s2 := by
  intro ops
  induction ops with
  | nil => exact fun hinv => ⟨_, rfl⟩
  | cons op ops ih =>
    intro s hinv
    obtain ⟨s1, h1, hinv1⟩ := applyOp_total hsz hinv op
    obtain ⟨s2, h2⟩ := ih hinv1
    refine ⟨s2, ?_⟩
    simp only [applyOps]
    rw [h1]
    exact h2

end TotalLemmas

/-! ## The claims -/

/-- C1: For every key `k`, after a successful `set(k, v)` with no later set
or remove of `k` (any sequence of operations on other keys may follow,
including ones that trigger compaction), `get(k)` returns `Some(v)`; in
particular after `set(k, v1)` then `set(k, v2)`, `get(k)` returns
`Some(v2)` — the newest `Set` wins. -/
theorem C1_set_then_get (sz : Command → Nat) (hsz : ∀ c, 1 ≤ sz c) (s : KvStore)
    (hr : Reachable sz s) (k v : String) (ops : List Op)
    (hops : ∀ op ∈ ops, op.touches k = false) :
    (((s.set sz k v).bind fun s1 => applyOps sz s1 ops).bind fun s2 => s2.get sz k)
      = some (Except.ok (some v)) ∧
    ∀ v2, (((s.set sz k v).bind fun s1 => s1.set sz k v2).bind fun s2 => s2.get sz k)
      = some (Except.ok (some v2)) := by
  have hinv := reach_INV hsz hr
  obtain ⟨s1, hset, hinv1, hget1, _⟩ := set_spec hsz hinv k v
  constructor
  · rw [hset]
    show ((applyOps sz s1 ops).bind fun s2 => s2.get sz k) = some (Except.ok (some v))
    obtain ⟨s2, happ⟩ := applyOps_total hsz ops hinv1
    rw [happ]
    show s2.get sz k = some (Except.ok (some v))
    obtain ⟨_, hgetp⟩ := applyOps_preserve hsz ops hinv1 s2 hops happ
    rw [hgetp, hget1]
  · intro v2
    rw [hset]
    show ((s1.set sz k v2).bind fun s2 => s2.get sz k) = some (Except.ok (some v2))
    obtain ⟨s2, hset2, _, hget2, _⟩ := set_spec hsz hinv1 k v2
    rw [hset2]
    show s2.get sz k = some (Except.ok (some v2))
    exact hget2

/-- C1 witness: a concrete run — open an empty directory, `set "a" "x"`,
then operate on another key; `get "a"` still returns `"x"`. -/
theorem C1_set_then_get_witness :
    ((((openStore sz0 []).set sz0 "a" "x").bind fun s1 =>
        applyOps sz0 s1 [Op.set "b" "y", Op.remove "b"]).bind
      fun s2 => s2.get sz0 "a") = some (Except.ok (some "x")) :=
  (C1_set_then_get sz0 sz0_pos _ (Reachable.openR [] (by simp)) "a" "x"
    [Op.set "b" "y", Op.remove "b"] (by decide)).1

/-- C2: For every reachable store state, re-opening the store's directory
yields a store whose `get(k)` result equals the pre-reopen `get(k)` result
for every key `k`; equivalently, replaying all segments in ascending id
order (`Set` as an index insert, `Remove` as an index delete) reconstructs
exactly the in-memory index the engine holds. -/
theorem C2_reopen_preserves_get (sz : Command → Nat) (hsz : ∀ c, 1 ≤ sz c)
    (s : KvStore) (hr : Reachable sz s) (k : String) :
    (openStore sz s.files).get sz k = s.get sz k ∧
    alookup (replayAll sz s.files) k = alookup s.index k := by
  have hinv := reach_INV hsz hr
  exact ⟨reopen_get hsz hinv k, hinv.replayEq k⟩

/-- C2 witness: a concrete directory with an overwrite and a remove;
re-opening reproduces the `get` result and the replayed index entry. -/
theorem C2_reopen_preserves_get_witness :
    (openStore sz0 (openStore sz0
        [(0, [Command.Set "k" "a", Command.Remove "k", Command.Set "k" "b"])]).files).get
      sz0 "k" = (openStore sz0
        [(0, [Command.Set "k" "a", Command.Remove "k", Command.Set "k" "b"])]).get sz0 "k" ∧
    alookup (replayAll sz0 (openStore sz0
        [(0, [Command.Set "k" "a", Command.Remove "k", Command.Set "k" "b"])]).files) "k"
      = alookup (openStore sz0
        [(0, [Command.Set "k" "a", Command.Remove "k", Command.Set "k" "b"])]).index "k" :=
  C2_reopen_preserves_get sz0 sz0_pos _ (Reachable.openR _ (by simp)) "k"

/-- C3: For every reachable store state, compaction succeeds and (a) leaves
`get(k)` unchanged for every key, (b) afterwards every index entry's
segment id equals the new active id (old active id + 1), (c) every segment
file with id strictly below the new id is deleted and its reader closed,
and (d) `uncompacted_bytes` is reset to zero. -/
theorem C3_compaction (sz : Command → Nat) (hsz : ∀ c, 1 ≤ sz c) (s : KvStore)
    (hr : Reachable sz s) :
    ∃ s2, s.compact sz = some s2 ∧
      s2.log_number = s.log_number + 1 ∧
      (∀ k, s2.get sz k = s.get sz k) ∧
      (∀ k pos, alookup s2.index k = some pos → pos.log_number = s.log_number + 1) ∧
      (∀ n, n < s.log_number + 1 → alookup s2.files n = none ∧ n ∉ s2.readers) ∧
      s2.uncompacted_bytes = 0 := by
  have hinv := reach_INV hsz hr
  obtain ⟨s2, h1, _, hlog, hunc, hgets, hlogEnt, hdel, _⟩ := compact_spec hsz hinv
  exact ⟨s2, h1, hlog, hgets, hlogEnt, hdel, hunc⟩

/-- C3 witness: compaction of a concrete one-segment store. -/
theorem C3_compaction_witness :
    ∃ s2, (openStore sz0 [(0, [Command.Set "a" "x"])]).compact sz0 = some s2 ∧
      s2.log_number = (openStore sz0 [(0, [Command.Set "a" "x"])]).log_number + 1 ∧
      (∀ k, s2.get sz0 k = (openStore sz0 [(0, [Command.Set "a" "x"])]).get sz0 k) ∧
      (∀ k pos, alookup s2.index k = some pos →
        pos.log_number = (openStore sz0 [(0, [Command.Set "a" "x"])]).log_number + 1) ∧
      (∀ n, n < (openStore sz0 [(0, [Command.Set "a" "x"])]).log_number + 1 →
        alookup s2.files n = none ∧ n ∉ s2.readers) ∧
      s2.uncompacted_bytes = 0 :=
  C3_compaction sz0 sz0_pos _ (Reachable.openR _ (by simp))

/-- C4: For every key `k` absent from the index, `remove(k)` fails with
`KeyNotFound` and returns the store unchanged — no `Remove` record is
appended, and index, log files and `uncompacted_bytes` are untouched. -/
theorem C4_remove_absent (sz : Command → Nat) (s : KvStore) (k : String)
    (hl : alookup s.index k = none) :
    s.remove sz k = some (Except.error KvsError.KeyNotFound, s) :=
  remove_absent hl

/-- C4 witness: removing a key from a freshly opened empty store. -/
theorem C4_remove_absent_witness :
    (openStore sz0 []).remove sz0 "missing"
      = some (Except.error KvsError.KeyNotFound, openStore sz0 []) :=
  C4_remove_absent sz0 _ "missing" rfl

/-- C5 counterexample: the claim says that after `open` the `uncompacted`
counter equals the obsolete bytes accounted during replay, but
`KvStore::open` initializes `uncompacted_bytes` to 0 (line 133) and
`load_index` does no accounting; on a directory whose single segment holds
a superseded `Set`, the code gives 0 while the spec's replay accounting
gives the superseded record's size (4 bytes under `sz0`). -/
theorem C5_uncompacted_counterexample :
    (openStore sz0 [(0, [Command.Set "k" "a", Command.Set "k" "b"])]).uncompacted_bytes
      = 0 ∧
    specReplayAccounting sz0 [(0, [Command.Set "k" "a", Command.Set "k" "b"])] = 4 ∧
    (0 : Nat) ≠ 4 := by
  refine ⟨rfl, by decide, by decide⟩

/-- C5 (amended): `open` always starts `uncompacted_bytes` at zero,
performing no accounting during replay; afterwards a successful `set` that
replaces an existing entry adds exactly the replaced entry's byte length
(and one that inserts a fresh key adds nothing), and a successful `remove`
adds exactly the removed entry's byte length — in each case before the
compaction-threshold check, which may subsequently reset the counter. -/
theorem C5_uncompacted_amended (sz : Command → Nat) :
    (∀ d : Dir, (openStore sz d).uncompacted_bytes = 0) ∧
    (∀ (s : KvStore) (k v : String) (old : CommandPosition),
      alookup s.index k = some old →
      ¬(s.afterSet sz k v).uncompacted_bytes > COMPACTION_THRESHOLD_BYTES →
      s.set sz k v = some (s.afterSet sz k v) ∧
      (s.afterSet sz k v).uncompacted_bytes = s.uncompacted_bytes + old.bytes) ∧
    (∀ (s : KvStore) (k v : String),
      alookup s.index k = none →
      ¬(s.afterSet sz k v).uncompacted_bytes > COMPACTION_THRESHOLD_BYTES →
      s.set sz k v = some (s.afterSet sz k v) ∧
      (s.afterSet sz k v).uncompacted_bytes = s.uncompacted_bytes) ∧
    (∀ (s : KvStore) (k : String) (old : CommandPosition),
      alookup s.index k = some old →
      ¬(s.afterRemove k old).uncompacted_bytes > COMPACTION_THRESHOLD_BYTES →
      s.remove sz k = some (.ok (), s.afterRemove k old) ∧
      (s.afterRemove k old).uncompacted_bytes = s.uncompacted_bytes + old.bytes) := by
  refine ⟨fun d => rfl, ?_, ?_, ?_⟩
  · intro s k v old hl hthr
    refine ⟨set_noc hthr, ?_⟩
    rw [afterSet_unc, hl]
  · intro s k v hl hthr
    refine ⟨set_noc hthr, ?_⟩
    rw [afterSet_unc, hl]
  · intro s k old hl hthr
    exact ⟨remove_present_noc hl hthr, afterRemove_unc s k old⟩

/-- C5 witness: the amended accounting on concrete stores. -/
theorem C5_uncompacted_amended_witness :
    (openStore sz0 []).uncompacted_bytes = 0 ∧
    ((openStore sz0 [(0, [Command.Set "k" "a"])]).set sz0 "k" "b"
        = some ((openStore sz0 [(0, [Command.Set "k" "a"])]).afterSet sz0 "k" "b") ∧
      ((openStore sz0 [(0, [Command.Set "k" "a"])]).afterSet sz0 "k" "b").uncompacted_bytes
        = (openStore sz0 [(0, [Command.Set "k" "a"])]).uncompacted_bytes + 4) ∧
    ((openStore sz0 [(0, [Command.Set "k" "a"])]).remove sz0 "k"
        = some (.ok (), (openStore sz0 [(0, [Command.Set "k" "a"])]).afterRemove "k"
            ⟨0, 0, 4⟩) ∧
      ((openStore sz0 [(0, [Command.Set "k" "a"])]).afterRemove "k"
          ⟨0, 0, 4⟩).uncompacted_bytes
        = (openStore sz0 [(0, [Command.Set "k" "a"])]).uncompacted_bytes + 4) :=
  ⟨(C5_uncompacted_amended sz0).1 [],
   (C5_uncompacted_amended sz0).2.1 _ "k" "b" ⟨0, 0, 4⟩ (by decide) (by decide),
   (C5_uncompacted_amended sz0).2.2.2 _ "k" ⟨0, 0, 4⟩ (by decide) (by decide)⟩

/-- C6 counterexample: the claim says the buffered bytes are flushed before
the index entry is published, but in `KvsEngine::set` for `KvStore` the
`writer.flush()` call (line 196) comes after the `index.insert` (line 186):
in the micro-step trace of `set`, the publish strictly precedes the flush. -/
theorem C6_flush_order_counterexample :
    (setEventTrace false).indexOf SetEvent.publishIndexEntry
      < (setEventTrace false).indexOf SetEvent.flushWriter ∧
    ¬(setEventTrace false).indexOf SetEvent.flushWriter
      < (setEventTrace false).indexOf SetEvent.publishIndexEntry := by
  decide

/-- C6 (amended): within every execution of `set`, the record is serialized
directly into the OS-level file (bypassing the `BufWriter` buffer, which
`stream_position` has already flushed) before the index entry is published,
so no bytes destined for the record are still buffered when the entry
becomes visible; the `flush` call itself only happens after the insert and
finds an empty buffer. -/
theorem C6_write_order_amended (compacts : Bool) :
    (setEventTrace compacts).indexOf (SetEvent.serializeRecord true)
      < (setEventTrace compacts).indexOf SetEvent.publishIndexEntry ∧
    bufferedAfter ((setEventTrace compacts).take
      ((setEventTrace compacts).indexOf SetEvent.publishIndexEntry)) = 0 ∧
    (setEventTrace compacts).indexOf SetEvent.publishIndexEntry
      < (setEventTrace compacts).indexOf SetEvent.flushWriter := by
  cases compacts <;> decide

/-- C7 counterexample: the claim says only names of the exact form
`<N>.kvs.log` are accepted, giving `5.log` as an excluded example — but
`get_log_numbers` accepts any `*.log` file whose stem parses after
stripping trailing `.kvs` occurrences, so a directory holding only the
file `5.log` yields `[5]` although no name matches `<N>.kvs.log`. -/
theorem C7_enumeration_counterexample :
    get_log_numbers [("5.log", true)] = [5] ∧
    [("5.log", true)].filterMap (fun e => specSegmentName e.1) = [] := by
  decide

/-- C7 (amended): the enumeration returns, sorted ascending, exactly the
ids of the directory's files whose extension is `log` and whose stem,
after stripping every trailing `.kvs`, parses as a `u64`; this accepts
every `<N>.kvs.log` but also, for example, `5.log`, while non-files and
other names are ignored silently. -/
theorem C7_enumeration_amended (entries : List (String × Bool)) :
    (get_log_numbers entries).Sorted (· ≤ ·) ∧
    List.Perm (get_log_numbers entries) (entries.filterMap entryLogNumber) ∧
    entryLogNumber ("41.kvs.log", true) = some 41 ∧
    entryLogNumber ("5.log", true) = some 5 ∧
    entryLogNumber ("a.txt", true) = none ∧
    entryLogNumber ("3.kvs.log", false) = none :=
  ⟨List.sorted_insertionSort _ _, List.perm_insertionSort _ _,
   by decide, by decide, by decide, by decide⟩

/-- C8 counterexample: the claim says a malformed request only closes that
connection and the accept loop continues — but `serve` returns
`Err(KvsError::Decode(..))` on a request that fails to decode (line 52),
so the run below ends in an error and the following well-formed client
(whose response write would have succeeded) is never served. -/
theorem C8_malformed_counterexample :
    serve unitEngine ()
        [ConnEvent.malformed "bad", ConnEvent.request (Request.Get "a") none]
      = Except.error (KvsError.Decode "bad") := rfl

/-- C8 (amended): a malformed request terminates `serve` with the decode
error, ending the accept loop, so subsequent clients are not served; only
failed accepts are logged and skipped. -/
theorem C8_malformed_amended {σ : Type} (eng : EngineM σ) (s : σ)
    (rest : List ConnEvent) (m : String) :
    serve eng s (ConnEvent.acceptError :: rest) = serve eng s rest ∧
    serve eng s (ConnEvent.malformed m :: rest) = Except.error (KvsError.Decode m) :=
  ⟨rfl, rfl⟩

/-- C9: every engine error is written to the wire as the `Err` variant
(index 1) carrying the error's `Display` string, and every engine success
as the matching `Ok` variant; in particular removing an absent key puts
exactly `Err("Key not found")` on the wire. -/
theorem C9_error_mapping (sz : Command → Nat) :
    (∀ e : KvsError,
      handle_get_request (Except.error e) = ⟨1, WirePayload.str e.toMessage⟩ ∧
      handle_set_request (Except.error e) = ⟨1, WirePayload.str e.toMessage⟩ ∧
      handle_remove_request (Except.error e) = ⟨1, WirePayload.str e.toMessage⟩) ∧
    (∀ v, handle_get_request (Except.ok v) = (GetResponse.Ok v).wire) ∧
    handle_set_request (Except.ok ()) = SetResponse.Ok.wire ∧
    handle_remove_request (Except.ok ()) = RemoveResponse.Ok.wire ∧
    KvsError.KeyNotFound.toMessage = "Key not found" ∧
    (∀ (s : KvStore) (k : String), alookup s.index k = none →
      ((s.remove sz k).map fun p => handle_remove_request p.1)
        = some ⟨1, WirePayload.str "Key not found"⟩) := by
  refine ⟨fun e => ⟨rfl, rfl, rfl⟩, fun v => rfl, rfl, rfl, rfl, ?_⟩
  intro s k hl
  rw [remove_absent hl]
  rfl

/-- C9 witness: removing an absent key from a concrete store produces the
`Err("Key not found")` wire record. -/
theorem C9_error_mapping_witness :
    (((openStore sz0 []).remove sz0 "nope").map fun p => handle_remove_request p.1)
      = some ⟨1, WirePayload.str "Key not found"⟩ :=
  (C9_error_mapping sz0).2.2.2.2.2 _ "nope" rfl

/-- C10 (implicit): in every reachable store state the readers table holds
a reader for every segment id referenced by some index entry, so the
reader lookups inside `get` and `compact` always succeed — their `unwrap`
branches (modelled as the `none` results) are unreachable. -/
theorem C10_readers_cover_index (sz : Command → Nat) (hsz : ∀ c, 1 ≤ sz c)
    (s : KvStore) (hr : Reachable sz s) :
    (∀ k pos, alookup s.index k = some pos → pos.log_number ∈ s.readers) ∧
    (∀ k, s.get sz k ≠ none) ∧
    s.compact sz ≠ none := by
  have hinv := reach_INV hsz hr
  refine ⟨?_, ?_, ?_⟩
  · intro k pos hl
    obtain ⟨f, v, hf, _, _⟩ := hinv.entries k pos hl
    exact (hinv.readersEq _).mpr (mem_keys_of_alookup hf)
  · intro k hh
    have := hinv.get_isSome k
    rw [hh] at this
    simp at this
  · intro hh
    have := INV.compact_isSome hsz hinv
    rw [hh] at this
    simp at this

/-- C10 witness: a concrete reachable store where the index references
segment 0 and the reader table covers it. -/
theorem C10_readers_cover_index_witness :
    (∀ k pos, alookup (openStore sz0 [(0, [Command.Set "a" "x"])]).index k = some pos →
      pos.log_number ∈ (openStore sz0 [(0, [Command.Set "a" "x"])]).readers) ∧
    (∀ k, (openStore sz0 [(0, [Command.Set "a" "x"])]).get sz0 k ≠ none) ∧
    (openStore sz0 [(0, [Command.Set "a" "x"])]).compact sz0 ≠ none :=
  C10_readers_cover_index sz0 sz0_pos _ (Reachable.openR _ (by simp))
